import Mathlib

/-!
Verification of the reactive execution engine of the `sept` notebook system.

The definitions below are a shallow embedding of the TypeScript sources:

* `apps/api/src/services/dag.ts` (`dagService`): `buildDependencyGraph`,
  `getAllDependents`, `detectCycles`, `markDependentsAsStale`,
  `getExecutionOrder`;
* `apps/api/src/services/cells.ts` (`cellService.update`);
* `apps/api/src/services/queue.ts` (`ExecutionQueueService.executeCell`,
  `queueDependents`, `enqueue`).

JavaScript collections are modelled as follows: a `Map` is an association
list (`List (key × value)`) whose entry order is insertion order, `Map.set`
on an existing key updates it in place and otherwise appends a fresh entry
at the end, and `Map.get(k) || fallback` reads the first entry with key `k`;
a `Set` is a duplicate-free list in insertion order; `Array.prototype.sort`
is a stable sort, here modelled by the stable `List.insertionSort` (all
stable sorts w.r.t. the comparator `a.order - b.order` produce the same
list).  Database rows are Lean structures; the row identifiers are opaque
strings (UUID primary keys).
-/

/-- A cell row as selected by `dagService.buildDependencyGraph`:
`{ id, order, reads, writes }`, after the per-row normalisation the source
applies (`order: parseInt(cell.order || '0', 10)`, `reads`/`writes`
defaulted to `[]` when `null`).  `order` is the parsed numeric order key. -/
structure CellDep where
  id : String
  order : Int
  reads : List String
  writes : List String
deriving DecidableEq, Repr

/-- The ephemeral dependency graph: a map from cell id to the list of ids of
cells that directly depend on it (JS `Map<string, string[]>`, modelled as an
association list in insertion order). -/
abbrev Graph := List (String × List String)

/-- `graph.get(k) || []`: the adjacency list of `k`, or `[]` if absent. -/
def getDeps (g : Graph) (k : String) : List String :=
  match g.find? (fun p => p.1 == k) with
  | some p => p.2
  | none => []

/-- `sortedCells`: the project's cells sorted ascending by numeric order
(`.sort((a, b) => a.order - b.order)`, a stable sort). -/
def sortCells (cs : List CellDep) : List CellDep :=
  cs.insertionSort (fun a b => a.order ≤ b.order)

instance : IsTotal CellDep (fun a b => a.order ≤ b.order) :=
  ⟨fun a b => Int.le_total a.order b.order⟩

instance : IsTrans CellDep (fun a b => a.order ≤ b.order) :=
  ⟨fun _ _ _ h1 h2 => le_trans h1 h2⟩

/-- The backwards scan of `buildDependencyGraph`: starting from the cell
just before the reader, the first previously-ordered cell whose `writes`
contains `v`.  `prev` is the list of cells strictly before the reader in
sorted order, so the scan is `find?` over `prev` reversed. -/
def lastWriter (prev : List CellDep) (v : String) : Option CellDep :=
  prev.reverse.find? (fun p => p.writes.contains v)

/-- JS `Set` built by repeated `add`: keep the first occurrence of each
element, preserving insertion order. -/
def dedupKeepFirst (l : List String) : List String :=
  l.foldl (fun acc v => if v ∈ acc then acc else acc ++ [v]) []

/-- The `dependencies` set computed for one cell: for each variable it
reads, the id of the most recent preceding writer (if any), deduplicated in
insertion order. -/
def depsOfCell (prev : List CellDep) (c : CellDep) : List String :=
  dedupKeepFirst (c.reads.filterMap (fun v => (lastWriter prev v).map (fun w => w.id)))

/-- `graph.set(depId, (graph.get(depId) || []).push(readerId))`: append
`readerId` to the adjacency list of `depId`, adding the key at the end of
the map if it is absent. -/
def addDependent (g : Graph) (depId readerId : String) : Graph :=
  if g.any (fun p => p.1 == depId) then
    g.map (fun p => if p.1 == depId then (p.1, p.2 ++ [readerId]) else p)
  else
    g ++ [(depId, [readerId])]

/-- The main loop of `buildDependencyGraph`: iterate over the sorted cells;
for each cell compute its dependencies from the cells before it and record
the cell as a dependent of each of them.  `prev` accumulates the cells
already processed (the sorted prefix). -/
def buildLoop : Graph → List CellDep → List CellDep → Graph
  | g, _, [] => g
  | g, prev, c :: rest =>
    if c.reads.isEmpty then
      buildLoop g (prev ++ [c]) rest
    else
      buildLoop ((depsOfCell prev c).foldl (fun acc d => addDependent acc d c.id) g)
        (prev ++ [c]) rest

/-- `dagService.buildDependencyGraph`: sort the cells by order, initialise
every cell id with an empty adjacency list, then run the dependency loop. -/
def buildDependencyGraph (cs : List CellDep) : Graph :=
  let sorted := sortCells cs
  buildLoop (sorted.map (fun c => (c.id, ([] : List String)))) [] sorted

/-- Specification companion of `buildLoop`: the readers recorded for writer
`w`, in processing order. -/
def collectReaders : List CellDep → List CellDep → String → List String
  | _, [], _ => []
  | prev, c :: rest, w =>
    (if w ∈ depsOfCell prev c then [c.id] else []) ++ collectReaders (prev ++ [c]) rest w

/-- All ids occurring in a graph: its keys followed by every id occurring
in an adjacency list.  Every node the DFS of `getAllDependents` can recurse
into lies in this list, which bounds the recursion depth. -/
def univIds (g : Graph) : List String :=
  g.map (fun p => p.1) ++ (g.map (fun p => p.2)).flatten

/-- State of the `getAllDependents` DFS: the JS `visited` set and `result`
array, both append-only lists in insertion order. -/
structure DfsSt where
  visited : List String
  result : List String
deriving DecidableEq, Repr

mutual

/-- `dfs` of `dagService.getAllDependents`: one call `dfs(id)` returns if
`id` is visited, else marks it visited and loops over its direct
dependents.  The JS recursion is unbounded; the `fuel` argument is consumed
on every call purely so the recursion is structural, and the theorems below
hold for every fuel at least `dfsFuel g`, which the source's terminating
recursion never exceeds. -/
def dfsVisit (g : Graph) : Nat → String → DfsSt → DfsSt
  | 0, _, st => st
  | fuel + 1, id, st =>
    if id ∈ st.visited then st
    else dfsChildren g fuel (getDeps g id) { st with visited := st.visited ++ [id] }

/-- The `for (const dependentId of directDependents)` loop inside `dfs`:
push each dependent onto `result`, then recurse into it. -/
def dfsChildren (g : Graph) : Nat → List String → DfsSt → DfsSt
  | 0, _, st => st
  | _ + 1, [], st => st
  | fuel + 1, d :: ds, st =>
    dfsChildren g fuel ds (dfsVisit g fuel d { st with result := st.result ++ [d] })

end

/-- Fuel potential of the `getAllDependents` DFS: enough fuel to visit every
not-yet-visited id of the graph and traverse its adjacency list. -/
def dfsPot (g : Graph) (visited : List String) : Nat :=
  (((univIds g).dedup.filter (fun u => u ∉ visited)).map
    (fun u => (getDeps g u).length + 2)).sum

/-- Fuel that provably suffices for the whole DFS (`dfs_visit_fuel` below). -/
def dfsFuel (g : Graph) : Nat := dfsPot g [] + 2

/-- `dagService.getAllDependents`: DFS from `cellId` over the dependents
graph, collecting every dependent as it is encountered (a dependent
reachable along several edges is pushed once per edge). -/
def getAllDependents (g : Graph) (cellId : String) : List String :=
  (dfsVisit g (dfsFuel g) cellId ⟨[], []⟩).result

/-- State of the `detectCycles` DFS: the `visited` and `recursionStack`
sets and the `cycleNodes` array. -/
structure CycSt where
  visited : List String
  stack : List String
  cyc : List String
deriving DecidableEq, Repr

mutual

/-- `dfs` of `dagService.detectCycles`: mark the cell visited and on the
recursion stack, then scan its dependents; returns whether a cycle was
found.  Callers only invoke it on unvisited cells.  As in `dfsVisit`, fuel
is consumed on every call only to keep the recursion structural. -/
def cycVisit (g : Graph) : Nat → String → CycSt → Bool × CycSt
  | 0, _, st => (false, st)
  | fuel + 1, id, st =>
    cycLoop g fuel id (getDeps g id)
      { st with visited := st.visited ++ [id], stack := st.stack ++ [id] }

/-- The `for (const dependentId of dependents)` loop of `detectCycles`'s
`dfs`: recurse into unvisited dependents (pushing the current cell onto
`cycleNodes` when the recursion reports a cycle), report a cycle when a
dependent is on the recursion stack, and on normal exit remove the current
cell from the recursion stack. -/
def cycLoop (g : Graph) : Nat → String → List String → CycSt → Bool × CycSt
  | 0, _, _, st => (false, st)
  | _ + 1, cur, [], st => (false, { st with stack := st.stack.erase cur })
  | fuel + 1, cur, d :: ds, st =>
    if d ∈ st.visited then
      if d ∈ st.stack then (true, { st with cyc := st.cyc ++ [cur, d] })
      else cycLoop g fuel cur ds st
    else
      match cycVisit g fuel d st with
      | (true, st1) => (true, { st1 with cyc := st1.cyc ++ [cur] })
      | (false, st1) => cycLoop g fuel cur ds st1

end

/-- Fuel potential for the `detectCycles` DFS, as for `dfsPot`. -/
def cycPot (g : Graph) (visited : List String) : Nat :=
  (((univIds g).dedup.filter (fun u => u ∉ visited)).map
    (fun u => (getDeps g u).length + 2)).sum

/-- Fuel that provably suffices for one `dfs` call of `detectCycles`. -/
def cycFuel (g : Graph) : Nat := cycPot g [] + 2

/-- The outer `for (const cellId of graph.keys())` loop of `detectCycles`:
run `dfs` from every not-yet-visited node (so disconnected subgraphs are
covered), returning `cycleNodes` as soon as a run reports a cycle. -/
def detectLoop (g : Graph) : List String → CycSt → List String
  | [], _ => []
  | k :: ks, st =>
    if k ∈ st.visited then detectLoop g ks st
    else
      match cycVisit g (cycFuel g) k st with
      | (true, st1) => st1.cyc
      | (false, st1) => detectLoop g ks st1

/-- `dagService.detectCycles`, from the adjacency map on: DFS with a
recursion stack over all nodes; `[]` iff no cycle was found. -/
def detectCyclesGraph (g : Graph) : List String :=
  detectLoop g (g.map (fun p => p.1)) ⟨[], [], []⟩

/-- `dagService.detectCycles`: build the dependency graph of the project's
cells, then run the cycle-detection DFS on it. -/
def detectCycles (cs : List CellDep) : List String :=
  detectCyclesGraph (buildDependencyGraph cs)

/-- The JS `Map<string, number>` used for in-degrees, as an association
list in insertion order. -/
abbrev DegMap := List (String × Int)

/-- `m.get(k)`: the value of the first entry with key `k`, if any. -/
def mapGet (m : DegMap) (k : String) : Option Int :=
  (m.find? (fun p => p.1 == k)).map (fun p => p.2)

/-- `m.get(k) || 0`. -/
def degVal (m : DegMap) (k : String) : Int := (mapGet m k).getD 0

/-- `m.set(k, v)`: update the entry in place, or append a fresh one. -/
def mapSet (m : DegMap) (k : String) (v : Int) : DegMap :=
  if m.any (fun p => p.1 == k) then
    m.map (fun p => if p.1 == k then (k, v) else p)
  else m ++ [(k, v)]

/-- The in-degree map of `getExecutionOrder`: every key starts at `0`, then
every occurrence of an id in an adjacency list increments its entry. -/
def inDegInit (g : Graph) : DegMap :=
  g.foldl (fun m p => p.2.foldl (fun m2 d => mapSet m2 d (degVal m2 d + 1)) m)
    (g.foldl (fun m p => mapSet m p.1 0) ([] : DegMap))

/-- The initial ready queue: ids of in-degree `0`, in entry order. -/
def seedQueue (m : DegMap) : List String :=
  (m.filter (fun p => p.2 == 0)).map (fun p => p.1)

/-- One iteration body of Kahn's algorithm: for each dependent of the
dequeued cell `u`, decrement its in-degree and collect it (in scan order)
when the new degree is exactly `0`.  The collected list is appended to the
queue, exactly as the source's immediate `queue.push` calls do. -/
def kahnStep (g : Graph) (deg : DegMap) (u : String) : DegMap × List String :=
  (getDeps g u).foldl
    (fun acc d =>
      let nd := degVal acc.1 d - 1
      (mapSet acc.1 d nd, if nd == 0 then acc.2 ++ [d] else acc.2))
    (deg, [])

/-- The `while (queue.length > 0)` loop of Kahn's algorithm: shift the
front of the queue, append it to the result, and run `kahnStep`.  The
source loop is unbounded; each iteration appends one element to `result`,
which stays a duplicate-free sublist of the keys, so the loop runs at most
`g.length` times and fuel `g.length + 1` models it exactly
(`kahnRun_total` below). -/
def kahnRun (g : Graph) : Nat → List String → DegMap → List String → List String
  | 0, _, _, result => result
  | _ + 1, [], _, result => result
  | fuel + 1, u :: rest, deg, result =>
    let s := kahnStep g deg u
    kahnRun g fuel (rest ++ s.2) s.1 (result ++ [u])

/-- `dagService.getExecutionOrder` from the adjacency map on: Kahn's
algorithm, throwing (`Except.error`, no partial result) when the sort did
not reach every node (`result.length !== graph.size`; the key count equals
`g.length` for the duplicate-free key lists the builder produces). -/
def kahnSort (g : Graph) : Except String (List String) :=
  let deg := inDegInit g
  let result := kahnRun g (g.length + 1) (seedQueue deg) deg []
  if result.length = g.length then Except.ok result
  else Except.error "Cannot compute execution order: circular dependency detected"

/-- `dagService.getExecutionOrder`: build the dependency graph, then
topologically sort it. -/
def getExecutionOrder (cs : List CellDep) : Except String (List String) :=
  kahnSort (buildDependencyGraph cs)

/-- The edge relation of a dependency graph: `Edge g u v` when `v` is
recorded as a direct dependent of `u`. -/
def Edge (g : Graph) (u v : String) : Prop := v ∈ getDeps g u

instance (g : Graph) (u v : String) : Decidable (Edge g u v) := by
  unfold Edge; infer_instance

/-- A graph is acyclic when no node reaches itself through one or more
edges. -/
def Acyclic (g : Graph) : Prop := ∀ v, ¬ Relation.TransGen (Edge g) v v

/-- Well-formed adjacency map: every id in an adjacency list is a key.
Every graph `buildDependencyGraph` produces is well-formed. -/
def WFGraph (g : Graph) : Prop :=
  ∀ p ∈ g, ∀ d ∈ p.2, d ∈ g.map (fun q => q.1)

/-- One output fragment (`{ type, data }`), opaque to the engine. -/
structure OutFrag where
  type : String
  data : String
deriving DecidableEq, Repr

/-- A row of the `cells` table (`models/schema.ts`), with the fields the
services read and write.  Timestamps are opaque integers; nullable columns
are `Option`. -/
structure CellRecord where
  id : String
  projectId : String
  type : String
  code : String
  order : String
  outputs : Option (List OutFrag)
  reads : Option (List String)
  writes : Option (List String)
  executionState : String
  lastExecutedAt : Option Int
  queuedAt : Option Int
  executionDuration : Option String
  updatedAt : Int
deriving DecidableEq, Repr

/-- The runtime argument object of `cellService.update`.  Its TypeScript
type `UpdateCellInput` declares only `type`, `code`, `order` and `outputs`,
but the callers in the execution engine also pass `executionState`,
`reads`, `writes`, `lastExecutedAt`, `executionDuration` and `queuedAt`, so
the runtime object is modelled with all of those keys (`none` = the key is
absent/`undefined`; for `queuedAt`, `some none` models an explicit
`null`). -/
structure UpdateCellInput where
  type : Option String := none
  code : Option String := none
  order : Option String := none
  outputs : Option (List OutFrag) := none
  executionState : Option String := none
  reads : Option (List String) := none
  writes : Option (List String) := none
  lastExecutedAt : Option Int := none
  executionDuration : Option String := none
  queuedAt : Option (Option Int) := none
deriving DecidableEq, Repr

/-- `cellService.update`: build `updateData` starting from
`{ updatedAt: new Date() }`, copying `type` and `order` when truthy (a
non-empty string) and `code` and `outputs` when not `undefined`, then write
exactly those columns.  No other key of the input object is read. -/
def cellServiceUpdate (c : CellRecord) (input : UpdateCellInput) (now : Int) :
    CellRecord :=
  let c1 := { c with updatedAt := now }
  let c2 := match input.type with
    | some t => if t ≠ "" then { c1 with type := t } else c1
    | none => c1
  let c3 := match input.code with
    | some s => { c2 with code := s }
    | none => c2
  let c4 := match input.order with
    | some o => if o ≠ "" then { c3 with order := o } else c3
    | none => c3
  match input.outputs with
  | some o => { c4 with outputs := some o }
  | none => c4

/-- The compute collaborator's response (`ExecutionResult` in `queue.ts`):
`dependencies` carries the analyzer's `(reads, writes)` when present. -/
structure ExecutionResult where
  success : Bool
  outputs : List OutFrag
  error : Option String
  dependencies : Option (List String × List String)
deriving DecidableEq, Repr

/-- The update `executeCell` issues after the compute call returns: state
`success`/`error` by `result.success`, the reported outputs, the analyzer's
`reads`/`writes` (defaulted to `[]`), and the execution telemetry — all
passed through `cellService.update`. -/
def executeCellCompletion (c : CellRecord) (result : ExecutionResult)
    (now : Int) (dur : String) : CellRecord :=
  cellServiceUpdate c
    { executionState := some (if result.success then "success" else "error")
      outputs := some result.outputs
      reads := some ((result.dependencies.map (fun d => d.1)).getD [])
      writes := some ((result.dependencies.map (fun d => d.2)).getD [])
      lastExecutedAt := some now
      executionDuration := some dur } now

/-- A project row, with the reactive-mode flag. -/
structure Project where
  id : String
  autoExecute : Bool
deriving DecidableEq, Repr

/-- `ExecutionQueueService.queueDependents`: return (do nothing) unless the
project exists and `autoExecute` is set; otherwise read the cell's direct
dependents from the freshly built graph and call `enqueue` on each, in
order.  The returned list is the sequence of `enqueue` calls issued. -/
def queueDependents (project : Option Project) (g : Graph) (cellId : String) :
    List String :=
  match project with
  | none => []
  | some p => if p.autoExecute then getDeps g cellId else []

/-- The enqueue calls issued by `ExecutionQueueService.executeCell` after a
run: `queueDependents` is invoked only when the compute collaborator
reported success (step 4); the error branch and the `catch` handler never
enqueue anything. -/
def executeCellEnqueues (result : ExecutionResult) (project : Option Project)
    (g : Graph) (cellId : String) : List String :=
  if result.success then queueDependents project g cellId else []

/-- The `cells` table restricted to one project. -/
abbrev Store := List CellRecord

/-- `db.update(cells).set({ executionState: 'stale' }).where(eq(cells.id,
depId))`: the direct row update used by `markDependentsAsStale` (which,
unlike the queue service, does not go through `cellService.update`). -/
def dbSetStale (store : Store) (depId : String) : Store :=
  store.map (fun c => if c.id == depId then { c with executionState := "stale" } else c)

/-- `dagService.markDependentsAsStale`: collect the transitive dependents
of `cellId` (including duplicates, as produced by `getAllDependents`), set
each collected id's row to `stale`, and return the length of the collected
list. -/
def markDependentsAsStale (g : Graph) (store : Store) (cellId : String) :
    Store × Nat :=
  let dependents := getAllDependents g cellId
  (dependents.foldl (fun s d => dbSetStale s d) store, dependents.length)

/-- The store effect of `executeCell`'s `catch` branch: a single-row update
of the failing cell (through `cellService.update`, with an error fragment
as outputs); no other row is touched. -/
def executeCellErrorStore (store : Store) (cellId : String) (msg : String)
    (now : Int) (dur : String) : Store :=
  store.map (fun c =>
    if c.id == cellId then
      cellServiceUpdate c
        { executionState := some "error"
          outputs := some [⟨"error", msg⟩]
          lastExecutedAt := some now
          executionDuration := some dur } now
    else c)

/-- A freshly created cell row (`idle`, no reads/writes), used as a
concrete input below. -/
def sampleCell : CellRecord :=
  { id := "cell-1", projectId := "proj-1", type := "python",
    code := "y = x + 1", order := "1", outputs := none, reads := none,
    writes := none, executionState := "idle", lastExecutedAt := none,
    queuedAt := none, executionDuration := none, updatedAt := 0 }

/-- A successful compute response reporting outputs and dependencies, used
as a concrete input below. -/
def sampleSuccess : ExecutionResult :=
  { success := true, outputs := [⟨"text", "ok"⟩], error := none,
    dependencies := some (["x"], ["y"]) }

/-- Concrete diamond-shaped notebook: `A` writes `x` and `y`, `B` reads `x`
and writes `z`, `C` reads `y` and `z`; so `C` depends on both `A` and `B`,
and `B` on `A`. -/
def diamondCells : List CellDep :=
  [⟨"A", 1, [], ["x", "y"]⟩, ⟨"B", 2, ["x"], ["z"]⟩, ⟨"C", 3, ["y", "z"], []⟩]

/-- Concrete adjacency map whose cycle (`A ↔ B`) is entered from the
non-cycle node `R`. -/
def rootedCycleGraph : Graph := [("R", ["A"]), ("A", ["B"]), ("B", ["A"])]

/-- Concrete notebook with two independent chains: `A` (order 1) writes
`x`, `B` (order 2) writes `y`, `C` (order 3) reads `y`, `D` (order 4)
reads `x`.  Processing `A` readies `D` and processing `B` readies `C`, so
`C` and `D` wait in the ready queue together, with `D` in front. -/
def fifoCells : List CellDep :=
  [⟨"A", 1, [], ["x"]⟩, ⟨"B", 2, [], ["y"]⟩, ⟨"C", 3, ["y"], []⟩,
    ⟨"D", 4, ["x"], []⟩]

/-- Total number of occurrences of `v` across all adjacency lists: the
in-degree Kahn's algorithm computes for `v` (with multiplicity). -/
def inDeg (g : Graph) (v : String) : Nat :=
  (g.map (fun p => p.2.count v)).sum

/-- Number of edges into `v` whose source lies in `res` (with
multiplicity), reading each source's adjacency list through `getDeps`. -/
def edgesFrom (g : Graph) (res : List String) (v : String) : Nat :=
  (res.map (fun u => (getDeps g u).count v)).sum

/-- The numeric order key of the cell with a given id (`0` if absent). -/
def orderKey (cs : List CellDep) (id : String) : Int :=
  ((sortCells cs).find? (fun c => c.id == id)).elim 0 (fun c => c.order)

/-- Loop invariant of Kahn's algorithm in `getExecutionOrder`, relating the
queue, the in-degree map and the result between iterations. -/
structure KahnInv (g : Graph) (q : List String) (deg : DegMap)
    (res : List String) : Prop where
  sub : ∀ x ∈ res ++ q, x ∈ g.map (fun p => p.1)
  nodup : (res ++ q).Nodup
  degSome : ∀ v ∈ g.map (fun p => p.1),
    mapGet deg v = some ((inDeg g v : Int) - (edgesFrom g res v : Int))
  degNone : ∀ v, v ∉ g.map (fun p => p.1) → mapGet deg v = none
  qZero : ∀ v ∈ q, inDeg g v = edgesFrom g res v
  resZero : ∀ v ∈ res, inDeg g v = edgesFrom g res v
  zeroIn : ∀ v ∈ g.map (fun p => p.1),
    inDeg g v = edgesFrom g res v → v ∈ res ++ q
  topo : ∀ j, ∀ hj : j < res.length, ∀ u, Edge g u (res.get ⟨j, hj⟩) →
    ∃ i, ∃ hi : i < res.length, i < j ∧ res.get ⟨i, hi⟩ = u

/-- Invariant of the `detectCycles` DFS: a cell that has been fully
processed (visited and popped off the recursion stack) has all its direct
dependents fully processed, and no cycle runs through it. -/
def CycBlackInv (g : Graph) (st : CycSt) : Prop :=
  (∀ x, x ∈ st.visited → x ∉ st.stack →
    ∀ y ∈ getDeps g x, y ∈ st.visited ∧ y ∉ st.stack) ∧
  (∀ x, x ∈ st.visited → x ∉ st.stack → ¬ Relation.TransGen (Edge g) x x)

/-- Duplicate-free adjacency lists.  `buildDependencyGraph` guarantees this
for duplicate-free cell ids: each cell's dependency set is a JS `Set`, so a
cell pushes its id at most once onto any dependents list. -/
def AdjNodup (g : Graph) : Prop := ∀ p ∈ g, p.2.Nodup

/-! ## Claim C10: `cellService.update` persists only content fields -/

/-- C10: every call to `cellService.update` persists only the `type`,
`code`, `order` and `outputs` fields of its input (under the source's
truthiness rules) plus a refreshed `updatedAt`; the `executionState`,
`queuedAt`, `reads`, `writes`, `lastExecutedAt` and `executionDuration`
columns are left unchanged no matter what the caller passes. -/
theorem cellServiceUpdate_only_content_fields (c : CellRecord)
    (input : UpdateCellInput) (now : Int) :
    (cellServiceUpdate c input now).id = c.id ∧
    (cellServiceUpdate c input now).projectId = c.projectId ∧
    (cellServiceUpdate c input now).executionState = c.executionState ∧
    (cellServiceUpdate c input now).queuedAt = c.queuedAt ∧
    (cellServiceUpdate c input now).reads = c.reads ∧
    (cellServiceUpdate c input now).writes = c.writes ∧
    (cellServiceUpdate c input now).lastExecutedAt = c.lastExecutedAt ∧
    (cellServiceUpdate c input now).executionDuration = c.executionDuration ∧
    (cellServiceUpdate c input now).updatedAt = now ∧
    (cellServiceUpdate c input now).type =
      (match input.type with
       | some t => if t ≠ "" then t else c.type
       | none => c.type) ∧
    (cellServiceUpdate c input now).code = input.code.getD c.code ∧
    (cellServiceUpdate c input now).order =
      (match input.order with
       | some o => if o ≠ "" then o else c.order
       | none => c.order) ∧
    (cellServiceUpdate c input now).outputs =
      (match input.outputs with
       | some o => some o
       | none => c.outputs) := by
  rcases input with ⟨t, cd, o, ou, es, rd, wr, le, ed, qa⟩
  cases t <;> cases cd <;> cases o <;> cases ou <;>
    simp only [cellServiceUpdate] <;> (try split_ifs) <;> simp_all

/-! ## Claim C1: the success transition loses its execution fields -/

/-- C1 (refuting evidence): when the compute collaborator reports success,
the update `executeCell` issues goes through `cellService.update`, which
drops `executionState`, `reads`, `writes`, `lastExecutedAt` and
`executionDuration`; on a fresh `idle` cell the record afterwards still has
state `"idle"` and empty reads/writes — only `outputs` (and `updatedAt`)
are persisted. -/
theorem executeCell_success_fields_dropped :
    (executeCellCompletion sampleCell sampleSuccess 100 "5ms").executionState
        = "idle" ∧
    (executeCellCompletion sampleCell sampleSuccess 100 "5ms").executionState
        ≠ "success" ∧
    (executeCellCompletion sampleCell sampleSuccess 100 "5ms").reads = none ∧
    (executeCellCompletion sampleCell sampleSuccess 100 "5ms").writes = none ∧
    (executeCellCompletion sampleCell sampleSuccess 100 "5ms").lastExecutedAt
        = none ∧
    (executeCellCompletion sampleCell sampleSuccess 100 "5ms").executionDuration
        = none ∧
    (executeCellCompletion sampleCell sampleSuccess 100 "5ms").outputs
        = some [⟨"text", "ok"⟩] := by
  decide

/-! ## Claim C5: reactive fan-out gating -/

/-- C5: after a run completes, `enqueue` is called on a cell iff the run
succeeded, the project's `autoExecute` flag is set, and the cell is a
*direct* dependent of the executed cell (the transitive closure is not
enqueued at once); an errored run enqueues nothing, and the error branch
updates only the failing cell's row, leaving every other row unchanged. -/
theorem executeCell_enqueues_gating (result : ExecutionResult) (p : Project)
    (g : Graph) (cellId : String) (store : Store) (msg : String) (now : Int)
    (dur : String) :
    (∀ d, d ∈ executeCellEnqueues result (some p) g cellId ↔
      result.success = true ∧ p.autoExecute = true ∧ d ∈ getDeps g cellId) ∧
    (result.success = false →
      executeCellEnqueues result (some p) g cellId = []) ∧
    (∀ c, c ∈ store → c.id ≠ cellId →
      c ∈ executeCellErrorStore store cellId msg now dur) := by
  refine ⟨fun d => ?_, fun hfail => ?_, fun c hc hne => ?_⟩
  · cases hs : result.success <;> cases ha : p.autoExecute <;>
      simp [executeCellEnqueues, queueDependents, hs, ha]
  · simp [executeCellEnqueues, hfail]
  · have : (fun c : CellRecord =>
        if c.id == cellId then
          cellServiceUpdate c
            { executionState := some "error"
              outputs := some [⟨"error", msg⟩]
              lastExecutedAt := some now
              executionDuration := some dur } now
        else c) c = c := by simp [hne]
    exact this ▸ List.mem_map_of_mem _ hc

/-- Witness for `executeCell_enqueues_gating` at a concrete input: a
successful run with `autoExecute` on enqueues the direct dependent `B`, and
an error update of another cell leaves `sampleCell` untouched. -/
theorem executeCell_enqueues_gating_witness :
    ("B" ∈ executeCellEnqueues sampleSuccess (some ⟨"proj-1", true⟩)
      [("A", ["B"])] "A") ∧
    (sampleCell ∈ executeCellErrorStore [sampleCell] "other-cell" "boom" 1 "2ms") := by
  constructor
  · exact ((executeCell_enqueues_gating sampleSuccess ⟨"proj-1", true⟩
      [("A", ["B"])] "A" [] "boom" 1 "2ms").1 "B").mpr ⟨rfl, rfl, by decide⟩
  · exact (executeCell_enqueues_gating sampleSuccess ⟨"proj-1", true⟩
      [("A", ["B"])] "other-cell" [sampleCell] "boom" 1 "2ms").2.2 sampleCell
      (by decide) (by decide)

/-! ## Dependency-graph builder: characterisation -/

theorem mem_dedupKeepFirst_aux (l acc : List String) (a : String) :
    (a ∈ l.foldl (fun acc v => if v ∈ acc then acc else acc ++ [v]) acc) ↔
      a ∈ acc ∨ a ∈ l := by
  induction l generalizing acc with
  | nil => simp
  | cons x xs ih =>
    simp only [List.foldl_cons]
    by_cases hx : x ∈ acc
    · rw [if_pos hx, ih]
      simp only [List.mem_cons]
      constructor
      · rintro (h | h)
        · exact Or.inl h
        · exact Or.inr (Or.inr h)
      · rintro (h | h | h)
        · exact Or.inl h
        · exact Or.inl (h ▸ hx)
        · exact Or.inr h
    · rw [if_neg hx, ih]
      simp only [List.mem_append, List.mem_singleton, List.mem_cons]
      tauto

theorem mem_dedupKeepFirst (l : List String) (a : String) :
    a ∈ dedupKeepFirst l ↔ a ∈ l := by
  unfold dedupKeepFirst
  rw [mem_dedupKeepFirst_aux]
  simp

theorem nodup_dedupKeepFirst_aux (l : List String) :
    ∀ acc : List String, acc.Nodup →
      (l.foldl (fun acc v => if v ∈ acc then acc else acc ++ [v]) acc).Nodup := by
  induction l with
  | nil => intro acc h; simpa
  | cons x xs ih =>
    intro acc h
    simp only [List.foldl_cons]
    by_cases hx : x ∈ acc
    · rw [if_pos hx]; exact ih _ h
    · rw [if_neg hx]
      refine ih _ (List.nodup_append.mpr ⟨h, List.nodup_singleton x, ?_⟩)
      intro a ha hax
      rw [List.mem_singleton] at hax
      exact hx (hax ▸ ha)

theorem nodup_dedupKeepFirst (l : List String) : (dedupKeepFirst l).Nodup :=
  nodup_dedupKeepFirst_aux l [] List.nodup_nil

theorem nodup_depsOfCell (prev : List CellDep) (c : CellDep) :
    (depsOfCell prev c).Nodup := by
  unfold depsOfCell
  exact nodup_dedupKeepFirst _

theorem getDeps_addDependent (g : Graph) (d rid w : String) :
    getDeps (addDependent g d rid) w =
      if w = d then getDeps g w ++ [rid] else getDeps g w := by
  unfold addDependent getDeps
  by_cases hany : g.any (fun p => p.1 == d)
  · rw [if_pos hany]
    have hcomp : ((fun q : String × List String => q.1 == w) ∘
        (fun p : String × List String => if p.1 == d then (p.1, p.2 ++ [rid]) else p)) =
        fun p : String × List String => p.1 == w := by
      funext p
      by_cases hpd : p.1 = d <;> simp [hpd]
    rw [List.find?_map, hcomp]
    cases hf : g.find? (fun p => p.1 == w) with
    | some p =>
      have hpw : p.1 = w := by simpa using List.find?_some hf
      by_cases hwd : w = d
      · simp [hpw, hwd]
      · have hpd : ¬ p.1 = d := by rw [hpw]; exact hwd
        simp [hpd, hwd]
    | none =>
      by_cases hwd : w = d
      · exfalso
        rcases List.any_eq_true.mp hany with ⟨p, hp, hpd⟩
        have : (g.find? (fun p => p.1 == w)).isSome :=
          List.find?_isSome.mpr ⟨p, hp, by simp_all⟩
        rw [hf] at this
        simp at this
      · simp [hwd]
  · rw [if_neg hany]
    rw [List.find?_append]
    cases hf : g.find? (fun p => p.1 == w) with
    | some p =>
      have hpw : p.1 = w := by simpa using List.find?_some hf
      have hpm := List.mem_of_find?_eq_some hf
      have hwd : ¬ w = d := fun h =>
        hany (List.any_eq_true.mpr ⟨p, hpm, by simp [hpw, h]⟩)
      simp [hwd]
    | none =>
      by_cases hwd : w = d
      · subst hwd
        simp [List.find?]
      · have hdw : ¬ (d == w) = true := by simp [Ne.symm hwd]
        simp [List.find?, hdw, hwd]

theorem getDeps_foldl_addDependent (deps : List String) (g : Graph)
    (rid w : String) (hnd : deps.Nodup) :
    getDeps (deps.foldl (fun acc d => addDependent acc d rid) g) w =
      if w ∈ deps then getDeps g w ++ [rid] else getDeps g w := by
  induction deps generalizing g with
  | nil => simp
  | cons d ds ih =>
    rcases List.nodup_cons.mp hnd with ⟨hd, hds⟩
    simp only [List.foldl_cons]
    rw [ih _ hds, getDeps_addDependent]
    by_cases hwds : w ∈ ds
    · have hwd : ¬ w = d := fun h => hd (h ▸ hwds)
      simp [hwds, hwd]
    · by_cases hwd : w = d
      · simp [hwds, hwd, hd]
      · simp [hwds, hwd]

theorem getDeps_buildLoop (rest : List CellDep) :
    ∀ (g : Graph) (prev : List CellDep) (w : String),
      getDeps (buildLoop g prev rest) w = getDeps g w ++ collectReaders prev rest w := by
  induction rest with
  | nil => intro g prev w; simp [buildLoop, collectReaders]
  | cons c cs ih =>
    intro g prev w
    simp only [buildLoop, collectReaders]
    by_cases hre : c.reads.isEmpty
    · rw [if_pos hre, ih]
      have : depsOfCell prev c = [] := by
        unfold depsOfCell
        rw [List.isEmpty_iff] at hre
        simp [hre, dedupKeepFirst]
      simp [this]
    · rw [if_neg hre, ih, getDeps_foldl_addDependent _ _ _ _ (nodup_depsOfCell prev c)]
      by_cases hw : w ∈ depsOfCell prev c
      · simp [hw, List.append_assoc]
      · simp [hw]

theorem getDeps_initGraph (l : List CellDep) (w : String) :
    getDeps (l.map (fun c => (c.id, ([] : List String)))) w = [] := by
  unfold getDeps
  cases hf : (l.map (fun c => (c.id, ([] : List String)))).find? (fun p => p.1 == w) with
  | some p =>
    have := List.find?_some hf
    have hp := List.mem_of_find?_eq_some hf
    rcases List.mem_map.mp hp with ⟨c, _, hc⟩
    simp [← hc]
  | none => rfl

theorem getDeps_buildDependencyGraph (cs : List CellDep) (w : String) :
    getDeps (buildDependencyGraph cs) w = collectReaders [] (sortCells cs) w := by
  unfold buildDependencyGraph
  rw [getDeps_buildLoop, getDeps_initGraph]
  simp

theorem mem_collectReaders (rest : List CellDep) :
    ∀ (prev : List CellDep) (w r : String),
      r ∈ collectReaders prev rest w ↔
        ∃ l1 c l2, rest = l1 ++ c :: l2 ∧ c.id = r ∧
          w ∈ depsOfCell (prev ++ l1) c := by
  induction rest with
  | nil => intro prev w r; simp [collectReaders]
  | cons c cs ih =>
    intro prev w r
    simp only [collectReaders, List.mem_append]
    constructor
    · rintro (h | h)
      · by_cases hw : w ∈ depsOfCell prev c
        · rw [if_pos hw, List.mem_singleton] at h
          exact ⟨[], c, cs, rfl, h.symm, by simpa using hw⟩
        · rw [if_neg hw] at h
          simp at h
      · rcases (ih _ _ _).mp h with ⟨l1, c1, l2, hsplit, hid, hdep⟩
        refine ⟨c :: l1, c1, l2, by simp [hsplit], hid, ?_⟩
        have heq : prev ++ [c] ++ l1 = prev ++ c :: l1 := by simp
        rwa [heq] at hdep
    · rintro ⟨l1, c1, l2, hsplit, hid, hdep⟩
      cases l1 with
      | nil =>
        simp only [List.nil_append, List.cons.injEq] at hsplit
        obtain ⟨hc, hcs⟩ := hsplit
        subst hc
        left
        have hw : w ∈ depsOfCell prev c := by simpa using hdep
        rw [if_pos hw, List.mem_singleton]
        exact hid.symm
      | cons c0 l1t =>
        simp only [List.cons_append, List.cons.injEq] at hsplit
        obtain ⟨hc, hcs⟩ := hsplit
        subst hc
        right
        refine (ih _ _ _).mpr ⟨l1t, c1, l2, hcs, hid, ?_⟩
        have heq : prev ++ [c] ++ l1t = prev ++ c :: l1t := by simp
        rw [heq]
        exact hdep

theorem lastWriter_eq_some_iff (prev : List CellDep) (v : String) (p : CellDep) :
    lastWriter prev v = some p ↔
      ∃ l1 l2, prev = l1 ++ p :: l2 ∧ v ∈ p.writes ∧ ∀ q ∈ l2, v ∉ q.writes := by
  unfold lastWriter
  rw [List.find?_eq_some]
  constructor
  · rintro ⟨hp, as, bs, hrev, hall⟩
    have hprev : prev = bs.reverse ++ p :: as.reverse := by
      have h2 := congrArg List.reverse hrev
      rw [List.reverse_reverse] at h2
      rw [h2]
      simp
    refine ⟨bs.reverse, as.reverse, hprev, by simpa using hp, ?_⟩
    intro q hq
    have hq2 : q ∈ as := by simpa using hq
    have := hall q hq2
    simpa using this
  · rintro ⟨l1, l2, hsplit, hv, hnone⟩
    refine ⟨by simpa using hv, l2.reverse, l1.reverse, ?_, ?_⟩
    · rw [hsplit]; simp
    · intro a ha
      have ha2 : a ∈ l2 := by simpa using ha
      simpa using hnone a ha2

theorem mem_depsOfCell (prev : List CellDep) (c : CellDep) (w : String) :
    w ∈ depsOfCell prev c ↔
      ∃ v ∈ c.reads, ∃ p, lastWriter prev v = some p ∧ p.id = w := by
  unfold depsOfCell
  rw [mem_dedupKeepFirst, List.mem_filterMap]
  constructor
  · rintro ⟨v, hv, hmap⟩
    rcases Option.map_eq_some'.mp hmap with ⟨p, hp, hpid⟩
    exact ⟨v, hv, p, hp, hpid⟩
  · rintro ⟨v, hv, p, hp, hpid⟩
    exact ⟨v, hv, by rw [hp]; simpa using hpid⟩

/-! ## Claim C2: reads resolve to the most recent preceding writer -/

/-- Characterisation of the builder's edges, shared by several claims: `r`
is recorded as a dependent of `w` iff the sorted sequence splits as
`pre ++ writer :: mid ++ reader :: post` with a variable read by the
reader, written by the writer and by no cell in between. -/
theorem getDeps_build_char (cs : List CellDep) (w r : String) :
    r ∈ getDeps (buildDependencyGraph cs) w ↔
      ∃ pre writer mid reader post,
        sortCells cs = pre ++ writer :: (mid ++ reader :: post) ∧
        writer.id = w ∧ reader.id = r ∧
        ∃ v ∈ reader.reads, v ∈ writer.writes ∧ ∀ q ∈ mid, v ∉ q.writes := by
  rw [getDeps_buildDependencyGraph, mem_collectReaders]
  constructor
  · rintro ⟨l1, c, l2, hsplit, hid, hdep⟩
    have hdep2 : w ∈ depsOfCell l1 c := by simpa using hdep
    rcases (mem_depsOfCell _ _ _).mp hdep2 with ⟨v, hv, p, hlw, hpid⟩
    rcases (lastWriter_eq_some_iff _ _ _).mp hlw with ⟨m1, m2, hl1, hvp, hnone⟩
    refine ⟨m1, p, m2, c, l2, ?_, hpid, hid, v, hv, hvp, hnone⟩
    rw [hsplit, hl1]
    simp
  · rintro ⟨pre, writer, mid, reader, post, hsplit, hwid, hrid, v, hv, hvw, hnone⟩
    refine ⟨pre ++ writer :: mid, reader, post, by rw [hsplit]; simp, hrid, ?_⟩
    have : w ∈ depsOfCell (pre ++ writer :: mid) reader :=
      (mem_depsOfCell _ _ _).mpr
        ⟨v, hv, writer,
          (lastWriter_eq_some_iff _ _ _).mpr ⟨pre, mid, rfl, hvw, hnone⟩, hwid⟩
    simpa using this

/-- C2: a cell `r` is recorded as a dependent of `w` iff, in the sorted
cell sequence, `w`'s cell appears strictly before `r`'s cell and writes
some variable that `r`'s cell reads which no cell strictly between them
writes — i.e. every read resolves to the single most-recently-ordered
writer among the preceding cells.  In particular, with cells
`C1(writes x), C2(writes x), C3(reads x)` in order, `C3` depends on `C2`
and never on `C1` (a cell between `C1` and `C3` — namely `C2` — writes
`x`). -/
theorem buildGraph_most_recent_writer (cs : List CellDep) (w r : String) :
    r ∈ getDeps (buildDependencyGraph cs) w ↔
      ∃ pre writer mid reader post,
        sortCells cs = pre ++ writer :: (mid ++ reader :: post) ∧
        writer.id = w ∧ reader.id = r ∧
        ∃ v ∈ reader.reads, v ∈ writer.writes ∧ ∀ q ∈ mid, v ∉ q.writes :=
  getDeps_build_char cs w r

/-! ## Claim C7: no forward dependencies -/

theorem sortCells_perm (cs : List CellDep) : (sortCells cs).Perm cs :=
  List.perm_insertionSort _ cs

theorem sortCells_sorted (cs : List CellDep) :
    (sortCells cs).Pairwise (fun a b => a.order ≤ b.order) :=
  List.sorted_insertionSort _ cs

/-- C7: the builder never records a dependency on a cell with a strictly
greater order: whenever `r` is recorded as depending on `w`, the writer's
cell sits strictly before the reader's cell in the sorted sequence, so its
order key is at most the reader's — and strictly below it whenever the
notebook's order keys are pairwise distinct (the invariant the spec
assumes of `order`). -/
theorem buildGraph_no_forward_dependency (cs : List CellDep) (w r : String)
    (h : r ∈ getDeps (buildDependencyGraph cs) w) :
    ∃ cw ∈ cs, ∃ cr ∈ cs, cw.id = w ∧ cr.id = r ∧ cw.order ≤ cr.order ∧
      ((cs.map (fun c => c.order)).Nodup → cw.order < cr.order) := by
  rcases (getDeps_build_char cs w r).mp h with
    ⟨pre, writer, mid, reader, post, hsplit, hwid, hrid, v, hv, hvw, hnone⟩
  have hmem_w : writer ∈ sortCells cs := by rw [hsplit]; simp
  have hmem_r : reader ∈ sortCells cs := by rw [hsplit]; simp
  have hperm := sortCells_perm cs
  have hle : writer.order ≤ reader.order := by
    have hp := sortCells_sorted cs
    rw [hsplit] at hp
    rcases List.pairwise_append.mp hp with ⟨_, hp2, _⟩
    exact List.rel_of_pairwise_cons hp2 (by simp)
  refine ⟨writer, hperm.mem_iff.mp hmem_w, reader, hperm.mem_iff.mp hmem_r,
    hwid, hrid, hle, ?_⟩
  intro hnd
  have hnd2 : ((sortCells cs).map (fun c => c.order)).Nodup :=
    ((hperm.map (fun c => c.order)).nodup_iff).mpr hnd
  rw [hsplit] at hnd2
  simp only [List.map_append, List.map_cons] at hnd2
  have hnd3 := hnd2.of_append_right
  rcases List.nodup_cons.mp hnd3 with ⟨hnotin, _⟩
  have hne : writer.order ≠ reader.order := by
    intro hEq
    exact hnotin (by rw [hEq]; simp)
  exact lt_of_le_of_ne hle hne

/-- Witness for `buildGraph_no_forward_dependency`: in the diamond notebook
`C` depends on `B`, and the conclusion holds at that input. -/
theorem buildGraph_no_forward_dependency_witness :
    ("C" ∈ getDeps (buildDependencyGraph diamondCells) "B") ∧
    (∃ cw ∈ diamondCells, ∃ cr ∈ diamondCells, cw.id = "B" ∧ cr.id = "C" ∧
      cw.order ≤ cr.order ∧
      ((diamondCells.map (fun c => c.order)).Nodup → cw.order < cr.order)) :=
  ⟨by decide, buildGraph_no_forward_dependency diamondCells "B" "C" (by decide)⟩

/-! ## Claim C8: ready batches are enqueued in ascending order -/

theorem collectReaders_sublist (rest : List CellDep) :
    ∀ (prev : List CellDep) (w : String),
      (collectReaders prev rest w).Sublist (rest.map (fun c => c.id)) := by
  induction rest with
  | nil => intro prev w; simp [collectReaders]
  | cons c cs ih =>
    intro prev w
    simp only [collectReaders, List.map_cons]
    by_cases hw : w ∈ depsOfCell prev c
    · rw [if_pos hw]
      simpa using List.Sublist.cons₂ c.id (ih (prev ++ [c]) w)
    · rw [if_neg hw]
      simpa using List.Sublist.cons c.id (ih (prev ++ [c]) w)

theorem mem_prev_of_mem_depsOfCell (prev : List CellDep) (c : CellDep)
    (w : String) (h : w ∈ depsOfCell prev c) : ∃ p ∈ prev, p.id = w := by
  rcases (mem_depsOfCell _ _ _).mp h with ⟨v, _, p, hlw, hpid⟩
  rcases (lastWriter_eq_some_iff _ _ _).mp hlw with ⟨l1, l2, hsplit, _, _⟩
  exact ⟨p, by rw [hsplit]; simp, hpid⟩

theorem keys_addDependent_of_mem (g : Graph) (d rid : String)
    (hd : d ∈ g.map (fun p => p.1)) :
    (addDependent g d rid).map (fun p => p.1) = g.map (fun p => p.1) := by
  unfold addDependent
  have hany : g.any (fun p => p.1 == d) := by
    rcases List.mem_map.mp hd with ⟨p, hp, hpd⟩
    exact List.any_eq_true.mpr ⟨p, hp, by simp [hpd]⟩
  rw [if_pos hany, List.map_map]
  apply List.map_congr_left
  intro p _
  by_cases hpd : p.1 = d <;> simp [hpd]

theorem keys_foldl_addDependent (deps : List String) :
    ∀ (g : Graph) (rid : String), (∀ d ∈ deps, d ∈ g.map (fun p => p.1)) →
      (deps.foldl (fun acc d => addDependent acc d rid) g).map (fun p => p.1) =
        g.map (fun p => p.1) := by
  induction deps with
  | nil => intro g rid _; rfl
  | cons d ds ih =>
    intro g rid h
    simp only [List.foldl_cons]
    have hkeys := keys_addDependent_of_mem g d rid (h d (by simp))
    rw [ih (addDependent g d rid) rid
      (fun d2 hd2 => by rw [hkeys]; exact h d2 (List.mem_cons_of_mem _ hd2)), hkeys]

theorem keys_buildLoop (rest : List CellDep) :
    ∀ (g : Graph) (prev : List CellDep),
      (∀ c ∈ prev ++ rest, c.id ∈ g.map (fun p => p.1)) →
      (buildLoop g prev rest).map (fun p => p.1) = g.map (fun p => p.1) := by
  induction rest with
  | nil => intro g prev _; rfl
  | cons c cs ih =>
    intro g prev h
    have hinv2 : ∀ c2 ∈ (prev ++ [c]) ++ cs, c2.id ∈ g.map (fun p => p.1) := by
      intro c2 hc2
      apply h
      simpa [List.append_assoc] using hc2
    simp only [buildLoop]
    by_cases hre : c.reads.isEmpty
    · rw [if_pos hre]; exact ih _ _ hinv2
    · rw [if_neg hre]
      have hdeps : ∀ d ∈ depsOfCell prev c, d ∈ g.map (fun p => p.1) := by
        intro d hd
        rcases mem_prev_of_mem_depsOfCell _ _ _ hd with ⟨p, hp, hpid⟩
        exact hpid ▸ h p (by simp [hp])
      have hkeys := keys_foldl_addDependent _ _ c.id hdeps
      rw [ih _ _ (fun c2 hc2 => by rw [hkeys]; exact hinv2 c2 hc2), hkeys]

theorem keys_buildDependencyGraph (cs : List CellDep) :
    (buildDependencyGraph cs).map (fun p => p.1) =
      (sortCells cs).map (fun c => c.id) := by
  unfold buildDependencyGraph
  have hinit : ((sortCells cs).map (fun c => (c.id, ([] : List String)))).map
      (fun p => p.1) = (sortCells cs).map (fun c => c.id) := by
    rw [List.map_map]; rfl
  rw [keys_buildLoop, hinit]
  intro c hc
  rw [hinit]
  simp only [List.nil_append] at hc
  exact List.mem_map_of_mem _ hc

theorem getDeps_eq_of_mem (g : Graph) (p : String × List String)
    (hnd : (g.map (fun q => q.1)).Nodup) (hp : p ∈ g) : getDeps g p.1 = p.2 := by
  induction g with
  | nil => cases hp
  | cons q g ih =>
    simp only [List.map_cons, List.nodup_cons] at hnd
    rcases List.mem_cons.mp hp with h | h
    · subst h
      unfold getDeps
      simp [List.find?]
    · have hqp : ¬ (q.1 == p.1) = true := by
        simp only [beq_iff_eq]
        intro hEq
        exact hnd.1 (hEq ▸ List.mem_map_of_mem _ h)
      unfold getDeps
      simp only [List.find?, hqp]
      exact ih hnd.2 h

theorem wf_buildDependencyGraph (cs : List CellDep)
    (hid : ((sortCells cs).map (fun c => c.id)).Nodup) :
    WFGraph (buildDependencyGraph cs) := by
  intro p hp d hd
  have hkeys := keys_buildDependencyGraph cs
  have hnd : ((buildDependencyGraph cs).map (fun q => q.1)).Nodup := by
    rw [hkeys]; exact hid
  have := getDeps_eq_of_mem _ p hnd hp
  rw [← this, getDeps_buildDependencyGraph] at hd
  have hsub := collectReaders_sublist (sortCells cs) [] p.1
  rw [hkeys]
  exact hsub.subset hd

theorem keys_mapSet_of_mem (m : DegMap) (k : String) (v : Int)
    (h : k ∈ m.map (fun p => p.1)) :
    (mapSet m k v).map (fun p => p.1) = m.map (fun p => p.1) := by
  unfold mapSet
  have hany : m.any (fun p => p.1 == k) := by
    rcases List.mem_map.mp h with ⟨p, hp, hpk⟩
    exact List.any_eq_true.mpr ⟨p, hp, by simp [hpk]⟩
  rw [if_pos hany, List.map_map]
  apply List.map_congr_left
  intro p _
  by_cases hpk : p.1 = k <;> simp [hpk]

theorem keys_mapSet_of_not_mem (m : DegMap) (k : String) (v : Int)
    (h : k ∉ m.map (fun p => p.1)) :
    (mapSet m k v).map (fun p => p.1) = m.map (fun p => p.1) ++ [k] := by
  unfold mapSet
  have hany : ¬ m.any (fun p => p.1 == k) = true := by
    intro hc
    rcases List.any_eq_true.mp hc with ⟨p, hp, hpk⟩
    have hpk2 : p.1 = k := beq_iff_eq.mp hpk
    exact h (hpk2 ▸ List.mem_map_of_mem (fun p => p.1) hp)
  rw [if_neg hany]
  simp

theorem keys_degBase (g : Graph) :
    ∀ (m : DegMap), (g.map (fun p => p.1)).Nodup →
      (∀ k ∈ g.map (fun p => p.1), k ∉ m.map (fun p => p.1)) →
      (g.foldl (fun m p => mapSet m p.1 0) m).map (fun p => p.1) =
        m.map (fun p => p.1) ++ g.map (fun p => p.1) := by
  induction g with
  | nil => intro m _ _; simp
  | cons q g ih =>
    intro m hnd hdis
    simp only [List.map_cons, List.nodup_cons] at hnd
    simp only [List.foldl_cons]
    have hq : q.1 ∉ m.map (fun p => p.1) := hdis q.1 (by simp)
    have hkeys := keys_mapSet_of_not_mem m q.1 0 hq
    rw [ih _ hnd.2 ?_, hkeys]
    · simp
    · intro k hk
      rw [hkeys]
      simp only [List.mem_append, List.mem_singleton]
      rintro (h | h)
      · exact hdis k (List.mem_cons_of_mem _ hk) h
      · exact hnd.1 (h ▸ hk)

theorem keys_degIncr_inner (ds : List String) :
    ∀ (m : DegMap), (∀ d ∈ ds, d ∈ m.map (fun p => p.1)) →
      (ds.foldl (fun m2 d => mapSet m2 d (degVal m2 d + 1)) m).map (fun p => p.1) =
        m.map (fun p => p.1) := by
  induction ds with
  | nil => intro m _; rfl
  | cons d ds ih =>
    intro m h
    simp only [List.foldl_cons]
    have hkeys := keys_mapSet_of_mem m d (degVal m d + 1) (h d (by simp))
    rw [ih _ (fun d2 hd2 => by rw [hkeys]; exact h d2 (List.mem_cons_of_mem _ hd2)),
      hkeys]

theorem keys_degIncr (entries : Graph) :
    ∀ (m : DegMap), (∀ p ∈ entries, ∀ d ∈ p.2, d ∈ m.map (fun q => q.1)) →
      (entries.foldl
        (fun m p => p.2.foldl (fun m2 d => mapSet m2 d (degVal m2 d + 1)) m)
        m).map (fun q => q.1) = m.map (fun q => q.1) := by
  induction entries with
  | nil => intro m _; rfl
  | cons p entries ih =>
    intro m h
    simp only [List.foldl_cons]
    have hkeys := keys_degIncr_inner p.2 m (h p (by simp))
    rw [ih _ (fun p2 hp2 d hd => by
      rw [hkeys]; exact h p2 (List.mem_cons_of_mem _ hp2) d hd), hkeys]

theorem keys_inDegInit (g : Graph) (hnd : (g.map (fun p => p.1)).Nodup)
    (hwf : WFGraph g) :
    (inDegInit g).map (fun p => p.1) = g.map (fun p => p.1) := by
  unfold inDegInit
  have hbase := keys_degBase g ([] : DegMap) hnd (by simp)
  rw [keys_degIncr g _ ?_, hbase]
  · simp
  · intro p hp d hd
    rw [hbase]
    simpa using hwf p hp d hd

theorem find?_id_of_mem (l : List CellDep) (c : CellDep)
    (hnd : (l.map (fun x => x.id)).Nodup) (hc : c ∈ l) :
    l.find? (fun x => x.id == c.id) = some c := by
  induction l with
  | nil => cases hc
  | cons q l ih =>
    simp only [List.map_cons, List.nodup_cons] at hnd
    rcases List.mem_cons.mp hc with h | h
    · subst h
      simp [List.find?]
    · have hqc : ¬ (q.id == c.id) = true := by
        simp only [beq_iff_eq]
        intro hEq
        exact hnd.1 (hEq ▸ List.mem_map_of_mem _ h)
      simp only [List.find?, hqc]
      exact ih hnd.2 h

theorem orderKey_of_mem (cs : List CellDep) (c : CellDep)
    (hnd : ((sortCells cs).map (fun x => x.id)).Nodup) (hc : c ∈ sortCells cs) :
    orderKey cs c.id = c.order := by
  unfold orderKey
  rw [find?_id_of_mem _ c hnd hc]
  rfl

theorem sortCells_ids_pairwise (cs : List CellDep)
    (hnd : ((sortCells cs).map (fun x => x.id)).Nodup) :
    ((sortCells cs).map (fun c => c.id)).Pairwise
      (fun a b => orderKey cs a ≤ orderKey cs b) := by
  rw [List.pairwise_map]
  have hp := sortCells_sorted cs
  refine hp.imp_of_mem ?_
  intro a b ha hb hab
  rw [orderKey_of_mem cs a hnd ha, orderKey_of_mem cs b hnd hb]
  exact hab

theorem getDeps_buildGraph_pairwise (cs : List CellDep)
    (hnd : ((sortCells cs).map (fun x => x.id)).Nodup) (w : String) :
    (getDeps (buildDependencyGraph cs) w).Pairwise
      (fun a b => orderKey cs a ≤ orderKey cs b) := by
  rw [getDeps_buildDependencyGraph]
  exact (sortCells_ids_pairwise cs hnd).sublist (collectReaders_sublist _ _ _)

theorem kahnStep_snd_sublist_aux (ds : List String) :
    ∀ (deg : DegMap) (acc : List String),
      ∃ t, (ds.foldl
          (fun acc2 d =>
            let nd := degVal acc2.1 d - 1
            (mapSet acc2.1 d nd, if nd == 0 then acc2.2 ++ [d] else acc2.2))
          (deg, acc)).2 = acc ++ t ∧ t.Sublist ds := by
  induction ds with
  | nil => intro deg acc; exact ⟨[], by simp, List.Sublist.refl _⟩
  | cons d ds ih =>
    intro deg acc
    rw [List.foldl_cons]
    by_cases hz : (degVal deg d - 1 == 0) = true
    · rcases ih (mapSet deg d (degVal deg d - 1)) (acc ++ [d]) with ⟨t, ht, hsub⟩
      refine ⟨d :: t, ?_, List.Sublist.cons₂ d hsub⟩
      show (List.foldl _ (mapSet deg d (degVal deg d - 1),
        if (degVal deg d - 1 == 0) = true then acc ++ [d] else acc) ds).2 = acc ++ d :: t
      rw [if_pos hz, ht]
      simp
    · rcases ih (mapSet deg d (degVal deg d - 1)) acc with ⟨t, ht, hsub⟩
      refine ⟨t, ?_, List.Sublist.cons d hsub⟩
      show (List.foldl _ (mapSet deg d (degVal deg d - 1),
        if (degVal deg d - 1 == 0) = true then acc ++ [d] else acc) ds).2 = acc ++ t
      rw [if_neg hz]
      exact ht

theorem kahnStep_snd_sublist (g : Graph) (deg : DegMap) (u : String) :
    ((kahnStep g deg u).2).Sublist (getDeps g u) := by
  unfold kahnStep
  rcases kahnStep_snd_sublist_aux (getDeps g u) deg [] with ⟨t, ht, hsub⟩
  rw [ht]
  simpa using hsub

/-- C8 counterexample: the Kahn queue of `getExecutionOrder` is plain
FIFO, with no ascending-order tie-break across simultaneously ready
nodes.  On `fifoCells`, after the seeds `A` and `B` are processed, `C`
(order 3) and `D` (order 4) are both ready — processing `A` appended the
batch `["D"]`, processing `B` then appended `["C"]`, and both have
in-degree `0` in the resulting degree map — yet the returned order is
`["A", "B", "D", "C"]`: `D` is emitted before the lower-ordered,
simultaneously ready `C`. -/
theorem kahn_fifo_order_counterexample :
    getExecutionOrder fifoCells = Except.ok ["A", "B", "D", "C"] ∧
    (kahnStep (buildDependencyGraph fifoCells)
      (inDegInit (buildDependencyGraph fifoCells)) "A").2 = ["D"] ∧
    (kahnStep (buildDependencyGraph fifoCells)
      (kahnStep (buildDependencyGraph fifoCells)
        (inDegInit (buildDependencyGraph fifoCells)) "A").1 "B").2 = ["C"] ∧
    degVal (kahnStep (buildDependencyGraph fifoCells)
      (kahnStep (buildDependencyGraph fifoCells)
        (inDegInit (buildDependencyGraph fifoCells)) "A").1 "B").1 "C" = 0 ∧
    degVal (kahnStep (buildDependencyGraph fifoCells)
      (kahnStep (buildDependencyGraph fifoCells)
        (inDegInit (buildDependencyGraph fifoCells)) "A").1 "B").1 "D" = 0 ∧
    orderKey fifoCells "C" = 3 ∧ orderKey fifoCells "D" = 4 :=
  ⟨by rfl, by decide, by decide, by decide, by decide, by decide, by decide⟩

/-- C8 (amended): ascending cell order holds only within one ready batch,
not across all simultaneously ready nodes: the initial seed queue of
`getExecutionOrder` lists the zero-in-degree nodes in ascending order, and
the batch any single `kahnStep` appends to the queue is in ascending order
as well (it is a sublist of the processed node's adjacency list, which the
builder orders by the readers' positions).  The queue itself is FIFO, so
nodes readied by different steps are emitted in arrival order, and a
later-ordered cell can be executed before a lower-ordered cell that is
ready at the same time (`kahn_fifo_order_counterexample`); the result is
still deterministic, but not ascending among equal-rank nodes. -/
theorem kahn_ready_batches_ascending (cs : List CellDep)
    (hid : (cs.map (fun c => c.id)).Nodup) :
    (seedQueue (inDegInit (buildDependencyGraph cs))).Pairwise
      (fun a b => orderKey cs a ≤ orderKey cs b) ∧
    ∀ (deg : DegMap) (u : String),
      ((kahnStep (buildDependencyGraph cs) deg u).2).Pairwise
        (fun a b => orderKey cs a ≤ orderKey cs b) := by
  have hids : ((sortCells cs).map (fun c => c.id)).Nodup :=
    ((sortCells_perm cs).map (fun c => c.id)).nodup_iff.mpr hid
  have hkeys := keys_buildDependencyGraph cs
  have hknd : ((buildDependencyGraph cs).map (fun p => p.1)).Nodup := by
    rw [hkeys]; exact hids
  have hwf := wf_buildDependencyGraph cs hids
  constructor
  · have hk := keys_inDegInit _ hknd hwf
    have hsub : (seedQueue (inDegInit (buildDependencyGraph cs))).Sublist
        ((inDegInit (buildDependencyGraph cs)).map (fun p => p.1)) := by
      unfold seedQueue
      exact (List.filter_sublist _).map _
    rw [hk, hkeys] at hsub
    exact (sortCells_ids_pairwise cs hids).sublist hsub
  · intro deg u
    exact (getDeps_buildGraph_pairwise cs hids u).sublist (kahnStep_snd_sublist _ _ _)

/-- Witness for `kahn_ready_batches_ascending` on the diamond notebook. -/
theorem kahn_ready_batches_ascending_witness :
    (seedQueue (inDegInit (buildDependencyGraph diamondCells))).Pairwise
      (fun a b => orderKey diamondCells a ≤ orderKey diamondCells b) ∧
    ∀ (deg : DegMap) (u : String),
      ((kahnStep (buildDependencyGraph diamondCells) deg u).2).Pairwise
        (fun a b => orderKey diamondCells a ≤ orderKey diamondCells b) :=
  kahn_ready_batches_ascending diamondCells (by decide)

/-! ## Claim C3: transitive dependents and staleness propagation -/

theorem getDeps_subset_univ (g : Graph) (u : String) :
    ∀ d ∈ getDeps g u, d ∈ univIds g := by
  intro d hd
  unfold getDeps at hd
  cases hf : g.find? (fun p => p.1 == u) with
  | some p =>
    rw [hf] at hd
    have hp := List.mem_of_find?_eq_some hf
    unfold univIds
    refine List.mem_append.mpr (Or.inr ?_)
    rw [List.mem_flatten]
    exact ⟨p.2, List.mem_map_of_mem _ hp, hd⟩
  | none =>
    rw [hf] at hd
    cases hd

theorem getDeps_eq_nil_of_not_univ (g : Graph) (u : String)
    (h : u ∉ univIds g) : getDeps g u = [] := by
  unfold getDeps
  cases hf : g.find? (fun p => p.1 == u) with
  | some p =>
    exfalso
    have hpu : p.1 = u := by simpa using List.find?_some hf
    have hp := List.mem_of_find?_eq_some hf
    exact h (List.mem_append.mpr (Or.inl (hpu ▸ List.mem_map_of_mem _ hp)))
  | none => rfl

theorem dfsPot_anti (g : Graph) (v1 v2 : List String) (h : ∀ x ∈ v1, x ∈ v2) :
    dfsPot g v2 ≤ dfsPot g v1 := by
  unfold dfsPot
  apply List.Sublist.sum_le_sum
  · apply List.Sublist.map
    apply List.monotone_filter_right
    intro a
    simp only [decide_eq_true_eq]
    intro h2 hmem
    exact h2 (h a hmem)
  · intro a _
    exact Nat.zero_le a

theorem dfsPot_decomp (g : Graph) (visited : List String) (id : String)
    (hu : id ∈ univIds g) (hv : id ∉ visited) :
    dfsPot g visited = dfsPot g (visited ++ [id]) + ((getDeps g id).length + 2) := by
  unfold dfsPot
  have hid : id ∈ (univIds g).dedup.filter (fun u => u ∉ visited) := by
    rw [List.mem_filter]
    exact ⟨List.mem_dedup.mpr hu, by simpa using hv⟩
  have hperm : ((univIds g).dedup.filter (fun u => u ∉ visited)).Perm
      (id :: ((univIds g).dedup.filter (fun u => u ∉ visited)).erase id) :=
    List.perm_cons_erase hid
  have hsum := (hperm.map (fun u => (getDeps g u).length + 2)).sum_eq
  rw [hsum]
  simp only [List.map_cons, List.sum_cons]
  have hnd : ((univIds g).dedup.filter (fun u => u ∉ visited)).Nodup :=
    (List.nodup_dedup _).filter _
  have herase : ((univIds g).dedup.filter (fun u => u ∉ visited)).erase id =
      (univIds g).dedup.filter (fun u => u ∉ visited ++ [id]) := by
    rw [hnd.erase_eq_filter, List.filter_filter]
    apply List.filter_congr
    intro a _
    by_cases h1 : a = id <;> by_cases h2 : a ∈ visited <;> simp [h1, h2]
  rw [herase]
  exact Nat.add_comm _ _

theorem dfs_mono_sound (g : Graph) : ∀ fuel : Nat,
    (∀ id st,
      (∀ x ∈ st.visited, x ∈ (dfsVisit g fuel id st).visited) ∧
      (∀ x ∈ st.result, x ∈ (dfsVisit g fuel id st).result) ∧
      (∀ x ∈ (dfsVisit g fuel id st).visited,
        x ∈ st.visited ∨ Relation.ReflTransGen (Edge g) id x) ∧
      (∀ x ∈ (dfsVisit g fuel id st).result,
        x ∈ st.result ∨ Relation.TransGen (Edge g) id x)) ∧
    (∀ ds st,
      (∀ x ∈ st.visited, x ∈ (dfsChildren g fuel ds st).visited) ∧
      (∀ x ∈ st.result, x ∈ (dfsChildren g fuel ds st).result) ∧
      (∀ x ∈ (dfsChildren g fuel ds st).visited,
        x ∈ st.visited ∨ ∃ d ∈ ds, Relation.ReflTransGen (Edge g) d x) ∧
      (∀ x ∈ (dfsChildren g fuel ds st).result,
        x ∈ st.result ∨ ∃ d ∈ ds, Relation.ReflTransGen (Edge g) d x)) := by
  intro fuel
  induction fuel with
  | zero =>
    constructor
    · intro id st
      simp only [dfsVisit]
      exact ⟨fun x h => h, fun x h => h, fun x h => Or.inl h, fun x h => Or.inl h⟩
    · intro ds st
      simp only [dfsChildren]
      exact ⟨fun x h => h, fun x h => h, fun x h => Or.inl h, fun x h => Or.inl h⟩
  | succ fuel ih =>
    obtain ⟨ihV, ihC⟩ := ih
    constructor
    · intro id st
      by_cases hvis : id ∈ st.visited
      · simp only [dfsVisit, if_pos hvis]
        exact ⟨fun x h => h, fun x h => h, fun x h => Or.inl h, fun x h => Or.inl h⟩
      · simp only [dfsVisit, if_neg hvis]
        obtain ⟨c1, c2, c3, c4⟩ := ihC (getDeps g id) { st with visited := st.visited ++ [id] }
        refine ⟨?_, ?_, ?_, ?_⟩
        · intro x hx
          exact c1 x (by simp [hx])
        · intro x hx
          exact c2 x hx
        · intro x hx
          rcases c3 x hx with h | ⟨d, hd, hrt⟩
          · rcases List.mem_append.mp h with h2 | h2
            · exact Or.inl h2
            · rw [List.mem_singleton] at h2
              exact Or.inr (h2 ▸ Relation.ReflTransGen.refl)
          · exact Or.inr (Relation.ReflTransGen.head hd hrt)
        · intro x hx
          rcases c4 x hx with h | ⟨d, hd, hrt⟩
          · exact Or.inl h
          · exact Or.inr (Relation.TransGen.trans_left (Relation.TransGen.single hd) hrt)
    · intro ds st
      cases ds with
      | nil =>
        simp only [dfsChildren]
        exact ⟨fun x h => h, fun x h => h, fun x h => Or.inl h, fun x h => Or.inl h⟩
      | cons d ds =>
        simp only [dfsChildren]
        obtain ⟨v1, v2, v3, v4⟩ := ihV d { st with result := st.result ++ [d] }
        obtain ⟨c1, c2, c3, c4⟩ :=
          ihC ds (dfsVisit g fuel d { st with result := st.result ++ [d] })
        refine ⟨?_, ?_, ?_, ?_⟩
        · intro x hx
          exact c1 x (v1 x hx)
        · intro x hx
          exact c2 x (v2 x (by simp [hx]))
        · intro x hx
          rcases c3 x hx with h | ⟨d2, hd2, hrt⟩
          · rcases v3 x h with h2 | h2
            · exact Or.inl h2
            · exact Or.inr ⟨d, by simp, h2⟩
          · exact Or.inr ⟨d2, List.mem_cons_of_mem _ hd2, hrt⟩
        · intro x hx
          rcases c4 x hx with h | ⟨d2, hd2, hrt⟩
          · rcases v4 x h with h2 | h2
            · rcases List.mem_append.mp h2 with h3 | h3
              · exact Or.inl h3
              · rw [List.mem_singleton] at h3
                exact Or.inr ⟨d, by simp, h3 ▸ Relation.ReflTransGen.refl⟩
            · exact Or.inr ⟨d, by simp, h2.to_reflTransGen⟩
          · exact Or.inr ⟨d2, List.mem_cons_of_mem _ hd2, hrt⟩

theorem dfs_complete (g : Graph) : ∀ fuel : Nat,
    (∀ id st, (id ∈ univIds g ∨ id ∈ st.visited) →
      dfsPot g st.visited + 2 ≤ fuel →
      id ∈ (dfsVisit g fuel id st).visited ∧
      (∀ x ∈ (dfsVisit g fuel id st).visited, x ∉ st.visited →
        ∀ y ∈ getDeps g x, y ∈ (dfsVisit g fuel id st).visited ∧
          y ∈ (dfsVisit g fuel id st).result)) ∧
    (∀ ds st, (∀ d ∈ ds, d ∈ univIds g) →
      dfsPot g st.visited + ds.length + 2 ≤ fuel →
      (∀ d ∈ ds, d ∈ (dfsChildren g fuel ds st).visited ∧
        d ∈ (dfsChildren g fuel ds st).result) ∧
      (∀ x ∈ (dfsChildren g fuel ds st).visited, x ∉ st.visited →
        ∀ y ∈ getDeps g x, y ∈ (dfsChildren g fuel ds st).visited ∧
          y ∈ (dfsChildren g fuel ds st).result)) := by
  intro fuel
  induction fuel with
  | zero =>
    constructor
    · intro id st _ hfuel
      exact absurd hfuel (by omega)
    · intro ds st _ hfuel
      exact absurd hfuel (by omega)
  | succ fuel ih =>
    obtain ⟨ihV, ihC⟩ := ih
    constructor
    · intro id st hid hfuel
      by_cases hvis : id ∈ st.visited
      · simp only [dfsVisit, if_pos hvis]
        exact ⟨hvis, fun x hx hnx => absurd hx hnx⟩
      · simp only [dfsVisit, if_neg hvis]
        have hidu : id ∈ univIds g := hid.resolve_right hvis
        have hdecomp := dfsPot_decomp g st.visited id hidu hvis
        have hfuel2 :
            dfsPot g ({ st with visited := st.visited ++ [id] } : DfsSt).visited +
              (getDeps g id).length + 2 ≤ fuel := by
          show dfsPot g (st.visited ++ [id]) + (getDeps g id).length + 2 ≤ fuel
          omega
        obtain ⟨b1, b2⟩ := ihC (getDeps g id)
          { st with visited := st.visited ++ [id] } (getDeps_subset_univ g id) hfuel2
        have mono := (dfs_mono_sound g fuel).2 (getDeps g id)
          { st with visited := st.visited ++ [id] }
        refine ⟨mono.1 id (by simp), ?_⟩
        intro x hx hnx
        by_cases hxid : x = id
        · intro y hy
          subst hxid
          exact b1 y hy
        · have hnx2 : x ∉ st.visited ++ [id] := by
            simp only [List.mem_append, List.mem_singleton]
            rintro (h | h)
            · exact hnx h
            · exact hxid h
          exact b2 x hx hnx2
    · intro ds st hds hfuel
      cases ds with
      | nil =>
        simp only [dfsChildren]
        exact ⟨fun d hd => absurd hd (List.not_mem_nil d),
          fun x hx hnx => absurd hx hnx⟩
      | cons d dsr =>
        simp only [dfsChildren]
        have hdu : d ∈ univIds g := hds d (by simp)
        have hfv : dfsPot g ({ st with result := st.result ++ [d] } : DfsSt).visited +
            2 ≤ fuel := by
          show dfsPot g st.visited + 2 ≤ fuel
          simp only [List.length_cons] at hfuel
          omega
        obtain ⟨bv1, bv2⟩ := ihV d { st with result := st.result ++ [d] }
          (Or.inl hdu) hfv
        have monoV := (dfs_mono_sound g fuel).1 d { st with result := st.result ++ [d] }
        have monoC := (dfs_mono_sound g fuel).2 dsr
          (dfsVisit g fuel d { st with result := st.result ++ [d] })
        have hpot3 : dfsPot g (dfsVisit g fuel d
            { st with result := st.result ++ [d] }).visited ≤ dfsPot g st.visited :=
          dfsPot_anti g st.visited _ (fun x hx => monoV.1 x hx)
        have hfc : dfsPot g (dfsVisit g fuel d
            { st with result := st.result ++ [d] }).visited + dsr.length + 2 ≤ fuel := by
          simp only [List.length_cons] at hfuel
          omega
        obtain ⟨bc1, bc2⟩ := ihC dsr (dfsVisit g fuel d { st with result := st.result ++ [d] })
          (fun d2 hd2 => hds d2 (List.mem_cons_of_mem _ hd2)) hfc
        refine ⟨?_, ?_⟩
        · intro d2 hd2
          rcases List.mem_cons.mp hd2 with h | h
          · subst h
            exact ⟨monoC.1 d2 bv1, monoC.2.1 d2 (monoV.2.1 d2 (by simp))⟩
          · exact bc1 d2 h
        · intro x hx hnx
          by_cases hx3 : x ∈ (dfsVisit g fuel d { st with result := st.result ++ [d] }).visited
          · intro y hy
            obtain ⟨hyv, hyr⟩ := bv2 x hx3 hnx y hy
            exact ⟨monoC.1 y hyv, monoC.2.1 y hyr⟩
          · exact bc2 x hx hx3

theorem getDeps_subset_flatten (g : Graph) (u : String) :
    ∀ d ∈ getDeps g u, d ∈ (g.map (fun p => p.2)).flatten := by
  intro d hd
  unfold getDeps at hd
  cases hf : g.find? (fun p => p.1 == u) with
  | some p =>
    rw [hf] at hd
    rw [List.mem_flatten]
    exact ⟨p.2, List.mem_map_of_mem _ (List.mem_of_find?_eq_some hf), hd⟩
  | none =>
    rw [hf] at hd
    cases hd

/-- Membership in `getAllDependents g c` is exactly reachability from `c`
through one or more dependency edges. -/
theorem getAllDependents_mem_iff (g : Graph) (c v : String) :
    v ∈ getAllDependents g c ↔ Relation.TransGen (Edge g) c v := by
  unfold getAllDependents
  constructor
  · intro hv
    rcases ((dfs_mono_sound g (dfsFuel g)).1 c ⟨[], []⟩).2.2.2 v hv with h | h
    · cases h
    · exact h
  · intro htg
    by_cases hcu : c ∈ univIds g
    · have hfuel : dfsPot g (⟨[], []⟩ : DfsSt).visited + 2 ≤ dfsFuel g := le_refl _
      obtain ⟨b1, b2⟩ := (dfs_complete g (dfsFuel g)).1 c ⟨[], []⟩ (Or.inl hcu) hfuel
      have hvisited : ∀ x, Relation.ReflTransGen (Edge g) c x →
          x ∈ (dfsVisit g (dfsFuel g) c ⟨[], []⟩).visited := by
        intro x hx
        induction hx with
        | refl => exact b1
        | tail hab hbc ihx => exact (b2 _ ihx (by simp) _ hbc).1
      rcases Relation.TransGen.tail'_iff.mp htg with ⟨b, hrt, hedge⟩
      exact (b2 b (hvisited b hrt) (by simp) v hedge).2
    · exfalso
      rcases Relation.TransGen.head'_iff.mp htg with ⟨b, hedge, _⟩
      unfold Edge at hedge
      rw [getDeps_eq_nil_of_not_univ g c hcu] at hedge
      cases hedge

theorem foldl_dbSetStale (deps : List String) :
    ∀ store : Store,
      deps.foldl (fun s d => dbSetStale s d) store =
        store.map (fun rec => if rec.id ∈ deps then
          { rec with executionState := "stale" } else rec) := by
  induction deps with
  | nil =>
    intro store
    simp
  | cons d ds ih =>
    intro store
    rw [List.foldl_cons, ih]
    unfold dbSetStale
    rw [List.map_map]
    apply List.map_congr_left
    intro rec _
    by_cases h1 : rec.id = d <;> by_cases h2 : rec.id ∈ ds <;>
      simp [h1, h2, Function.comp]

/-- C3 (amended): `markDependentsAsStale` marks as `stale` exactly the rows
whose ids are transitive dependents of the changed cell, leaving the origin
(on an acyclic graph) and every other row untouched; the collected list's
members are exactly the transitive dependents, but a dependent reachable
along several edges appears once per edge (so the list, and the returned
count, may repeat ids). -/
theorem markDependentsAsStale_spec (g : Graph) (store : Store) (c : String) :
    (∀ v, v ∈ getAllDependents g c ↔ Relation.TransGen (Edge g) c v) ∧
    (Acyclic g → c ∉ getAllDependents g c) ∧
    (markDependentsAsStale g store c).1 =
      store.map (fun rec => if rec.id ∈ getAllDependents g c then
        { rec with executionState := "stale" } else rec) ∧
    (markDependentsAsStale g store c).2 = (getAllDependents g c).length := by
  refine ⟨fun v => getAllDependents_mem_iff g c v, ?_, ?_, rfl⟩
  · intro hacy hc
    exact hacy c ((getAllDependents_mem_iff g c c).mp hc)
  · unfold markDependentsAsStale
    exact foldl_dbSetStale _ _

/-- C3 counterexample: in the diamond notebook (`A → B`, `A → C`, `B → C`)
the collected dependent list of `A` is `["B", "C", "C"]` — `C` appears
twice, so the operation does not return "each dependent exactly once" and
reports a count of `3` for the two distinct dependents. -/
theorem getAllDependents_duplicates_counterexample :
    getAllDependents (buildDependencyGraph diamondCells) "A" = ["B", "C", "C"] ∧
    ¬ (getAllDependents (buildDependencyGraph diamondCells) "A").Nodup ∧
    (markDependentsAsStale (buildDependencyGraph diamondCells) [] "A").2 = 3 := by
  refine ⟨by decide, by decide, by decide⟩

/-- Witness for `markDependentsAsStale_spec`: concrete instantiations
discharging its hypotheses (`B` really is reachable from `A` in the
diamond notebook, and on a single-cell acyclic notebook the origin is not
among its own dependents). -/
theorem markDependentsAsStale_spec_witness :
    Relation.TransGen (Edge (buildDependencyGraph diamondCells)) "A" "B" ∧
    "A" ∉ getAllDependents (buildDependencyGraph [⟨"A", 1, [], []⟩]) "A" := by
  constructor
  · exact ((markDependentsAsStale_spec (buildDependencyGraph diamondCells)
      [] "A").1 "B").mp (by decide)
  · refine (markDependentsAsStale_spec (buildDependencyGraph [⟨"A", 1, [], []⟩])
      [] "A").2.1 ?_
    intro v hv
    rcases Relation.TransGen.tail'_iff.mp hv with ⟨b, _, hedge⟩
    have h2 := getDeps_subset_flatten _ b v hedge
    have h3 : ((buildDependencyGraph [⟨"A", 1, [], []⟩]).map
        (fun p => p.2)).flatten = ([] : List String) := by decide
    rw [h3] at h2
    cases h2

/-! ## Claim C6: cycle detection -/

theorem mem_keys_of_edge (g : Graph) (u v : String) (h : Edge g u v) :
    u ∈ g.map (fun p => p.1) := by
  unfold Edge getDeps at h
  cases hf : g.find? (fun p => p.1 == u) with
  | some p =>
    have hpu : p.1 = u := by simpa using List.find?_some hf
    exact hpu ▸ List.mem_map_of_mem _ (List.mem_of_find?_eq_some hf)
  | none =>
    rw [hf] at h
    cases h

theorem cycPot_eq_dfsPot (g : Graph) (visited : List String) :
    cycPot g visited = dfsPot g visited := rfl

theorem erase_append_singleton (l : List String) (a : String) (h : a ∉ l) :
    (l ++ [a]).erase a = l := by
  rw [List.erase_append_right _ h, List.erase_cons_head, List.append_nil]

theorem cyc_false_post (g : Graph) : ∀ fuel : Nat,
    (∀ id st, id ∈ univIds g → id ∉ st.visited →
      (∀ x ∈ st.stack, x ∈ st.visited) →
      cycPot g st.visited + 2 ≤ fuel →
      (cycVisit g fuel id st).1 = false →
      (cycVisit g fuel id st).2.stack = st.stack ∧
      (∀ x ∈ st.visited, x ∈ (cycVisit g fuel id st).2.visited) ∧
      id ∈ (cycVisit g fuel id st).2.visited ∧
      (∀ x ∈ (cycVisit g fuel id st).2.stack,
        x ∈ (cycVisit g fuel id st).2.visited) ∧
      (cycVisit g fuel id st).2.cyc = st.cyc) ∧
    (∀ cur ds st, (∀ d ∈ ds, d ∈ univIds g) →
      (∀ x ∈ st.stack, x ∈ st.visited) →
      cycPot g st.visited + ds.length + 2 ≤ fuel →
      (cycLoop g fuel cur ds st).1 = false →
      (cycLoop g fuel cur ds st).2.stack = st.stack.erase cur ∧
      (∀ x ∈ st.visited, x ∈ (cycLoop g fuel cur ds st).2.visited) ∧
      (∀ x ∈ (cycLoop g fuel cur ds st).2.stack,
        x ∈ (cycLoop g fuel cur ds st).2.visited) ∧
      (cycLoop g fuel cur ds st).2.cyc = st.cyc) := by
  intro fuel
  induction fuel with
  | zero =>
    constructor
    · intro id st _ _ _ hfuel
      exact absurd hfuel (by omega)
    · intro cur ds st _ _ hfuel
      exact absurd hfuel (by omega)
  | succ fuel ih =>
    obtain ⟨ihV, ihL⟩ := ih
    constructor
    · intro id st hidu hidv hsv hfuel hfalse
      simp only [cycVisit] at hfalse ⊢
      have hdecomp := dfsPot_decomp g st.visited id hidu hidv
      rw [cycPot_eq_dfsPot] at hfuel
      have hfuel2 : cycPot g (st.visited ++ [id]) + (getDeps g id).length + 2 ≤
          fuel := by
        rw [cycPot_eq_dfsPot]
        omega
      have hsv2 : ∀ x ∈ st.stack ++ [id], x ∈ st.visited ++ [id] := by
        intro x hx
        rcases List.mem_append.mp hx with h | h
        · exact List.mem_append.mpr (Or.inl (hsv x h))
        · exact List.mem_append.mpr (Or.inr h)
      obtain ⟨l1, l2, l3, l4⟩ := ihL id (getDeps g id)
        { st with visited := st.visited ++ [id], stack := st.stack ++ [id] }
        (getDeps_subset_univ g id) hsv2 hfuel2 hfalse
      have hins : id ∉ st.stack := fun h => hidv (hsv id h)
      refine ⟨?_, ?_, ?_, l3, l4⟩
      · rw [l1]
        exact erase_append_singleton st.stack id hins
      · intro x hx
        exact l2 x (List.mem_append.mpr (Or.inl hx))
      · exact l2 id (List.mem_append.mpr (Or.inr (by simp)))
    · intro cur ds st hds hsv hfuel hfalse
      cases ds with
      | nil =>
        exact ⟨rfl, fun x hx => hx,
          fun x hx => hsv x (List.mem_of_mem_erase hx), rfl⟩
      | cons d dsr =>
        simp only [cycLoop] at hfalse ⊢
        by_cases hdv : d ∈ st.visited
        · simp only [if_pos hdv] at hfalse ⊢
          by_cases hdsk : d ∈ st.stack
          · rw [if_pos hdsk] at hfalse
            cases hfalse
          · rw [if_neg hdsk] at hfalse ⊢
            have hfuel2 : cycPot g st.visited + dsr.length + 2 ≤ fuel := by
              simp only [List.length_cons] at hfuel
              omega
            exact ihL cur dsr st (fun x hx => hds x (List.mem_cons_of_mem _ hx))
              hsv hfuel2 hfalse
        · simp only [if_neg hdv] at hfalse ⊢
          rcases hv : cycVisit g fuel d st with ⟨b, st1⟩
          rw [hv] at hfalse
          cases b with
          | true =>
            have hft : (true : Bool) = false := hfalse
            cases hft
          | false =>
            have hfalse2 : (cycLoop g fuel cur dsr st1).1 = false := hfalse
            have hvfalse : (cycVisit g fuel d st).1 = false := by rw [hv]
            have h2 : (cycVisit g fuel d st).2 = st1 := by rw [hv]
            have hfuelv : cycPot g st.visited + 2 ≤ fuel := by
              simp only [List.length_cons] at hfuel
              omega
            obtain ⟨v1, v2, v3, v4, v5⟩ :=
              ihV d st (hds d (by simp)) hdv hsv hfuelv hvfalse
            rw [h2] at v1 v2 v3 v4 v5
            have hfuel2 : cycPot g st1.visited + dsr.length + 2 ≤ fuel := by
              have hanti : dfsPot g st1.visited ≤ dfsPot g st.visited :=
                dfsPot_anti g st.visited st1.visited v2
              rw [cycPot_eq_dfsPot] at hfuel ⊢
              simp only [List.length_cons] at hfuel
              omega
            obtain ⟨l1, l2, l3, l4⟩ := ihL cur dsr st1
              (fun x hx => hds x (List.mem_cons_of_mem _ hx)) v4 hfuel2 hfalse2
            exact ⟨by rw [l1, v1], fun x hx => l2 x (v2 x hx), l3,
              by rw [l4, v5]⟩

theorem cyc_true_cycle (g : Graph) : ∀ fuel : Nat,
    (∀ id st, id ∈ univIds g → id ∉ st.visited →
      (∀ x ∈ st.stack, x ∈ st.visited) →
      (∀ x ∈ st.stack, Relation.ReflTransGen (Edge g) x id) →
      cycPot g st.visited + 2 ≤ fuel →
      (cycVisit g fuel id st).1 = true →
      (∃ z, Relation.TransGen (Edge g) z z) ∧
      ∃ l, l ≠ [] ∧ (cycVisit g fuel id st).2.cyc = st.cyc ++ l) ∧
    (∀ cur ds st, (∀ d ∈ ds, d ∈ univIds g) →
      (∀ x ∈ st.stack, x ∈ st.visited) →
      (∀ x ∈ st.stack, Relation.ReflTransGen (Edge g) x cur) →
      (∀ d ∈ ds, Edge g cur d) →
      cycPot g st.visited + ds.length + 2 ≤ fuel →
      (cycLoop g fuel cur ds st).1 = true →
      (∃ z, Relation.TransGen (Edge g) z z) ∧
      ∃ l, l ≠ [] ∧ (cycLoop g fuel cur ds st).2.cyc = st.cyc ++ l) := by
  intro fuel
  induction fuel with
  | zero =>
    constructor
    · intro id st _ _ _ _ hfuel
      exact absurd hfuel (by omega)
    · intro cur ds st _ _ _ _ hfuel
      exact absurd hfuel (by omega)
  | succ fuel ih =>
    obtain ⟨ihV, ihL⟩ := ih
    constructor
    · intro id st hidu hidv hsv hrt hfuel htrue
      simp only [cycVisit] at htrue ⊢
      have hdecomp := dfsPot_decomp g st.visited id hidu hidv
      rw [cycPot_eq_dfsPot] at hfuel
      have hfuel2 : cycPot g (st.visited ++ [id]) + (getDeps g id).length + 2 ≤
          fuel := by
        rw [cycPot_eq_dfsPot]
        omega
      have hsv2 : ∀ x ∈ st.stack ++ [id], x ∈ st.visited ++ [id] := by
        intro x hx
        rcases List.mem_append.mp hx with h | h
        · exact List.mem_append.mpr (Or.inl (hsv x h))
        · exact List.mem_append.mpr (Or.inr h)
      have hrt2 : ∀ x ∈ st.stack ++ [id], Relation.ReflTransGen (Edge g) x id := by
        intro x hx
        rcases List.mem_append.mp hx with h | h
        · exact hrt x h
        · rw [List.mem_singleton] at h
          exact h ▸ Relation.ReflTransGen.refl
      obtain ⟨hcyc, l, hl, heq⟩ := ihL id (getDeps g id)
        { st with visited := st.visited ++ [id], stack := st.stack ++ [id] }
        (getDeps_subset_univ g id) hsv2 hrt2 (fun d hd => hd) hfuel2 htrue
      exact ⟨hcyc, l, hl, heq⟩
    · intro cur ds st hds hsv hrt hedges hfuel htrue
      cases ds with
      | nil =>
        have hft : (false : Bool) = true := htrue
        cases hft
      | cons d dsr =>
        simp only [cycLoop] at htrue ⊢
        by_cases hdv : d ∈ st.visited
        · simp only [if_pos hdv] at htrue ⊢
          by_cases hdsk : d ∈ st.stack
          · rw [if_pos hdsk] at htrue ⊢
            refine ⟨⟨d, Relation.TransGen.trans_right (hrt d hdsk)
              (Relation.TransGen.single (hedges d (by simp)))⟩,
              [cur, d], by simp, rfl⟩
          · rw [if_neg hdsk] at htrue ⊢
            have hfuel2 : cycPot g st.visited + dsr.length + 2 ≤ fuel := by
              simp only [List.length_cons] at hfuel
              omega
            exact ihL cur dsr st (fun x hx => hds x (List.mem_cons_of_mem _ hx))
              hsv hrt (fun x hx => hedges x (List.mem_cons_of_mem _ hx))
              hfuel2 htrue
        · simp only [if_neg hdv] at htrue ⊢
          rcases hv : cycVisit g fuel d st with ⟨b, st1⟩
          rw [hv] at htrue
          cases b with
          | true =>
            have hvtrue : (cycVisit g fuel d st).1 = true := by rw [hv]
            have h2 : (cycVisit g fuel d st).2 = st1 := by rw [hv]
            have hfuelv : cycPot g st.visited + 2 ≤ fuel := by
              simp only [List.length_cons] at hfuel
              omega
            have hrtd : ∀ x ∈ st.stack, Relation.ReflTransGen (Edge g) x d :=
              fun x hx => Relation.ReflTransGen.tail (hrt x hx) (hedges d (by simp))
            obtain ⟨hcyc, l, hl, heq⟩ :=
              ihV d st (hds d (by simp)) hdv hsv hrtd hfuelv hvtrue
            rw [h2] at heq
            refine ⟨hcyc, l ++ [cur], by simp, ?_⟩
            show st1.cyc ++ [cur] = st.cyc ++ (l ++ [cur])
            rw [heq, List.append_assoc]
          | false =>
            have hfalse2 : (cycVisit g fuel d st).1 = false := by rw [hv]
            have h2 : (cycVisit g fuel d st).2 = st1 := by rw [hv]
            have htrue2 : (cycLoop g fuel cur dsr st1).1 = true := htrue
            have hfuelv : cycPot g st.visited + 2 ≤ fuel := by
              simp only [List.length_cons] at hfuel
              omega
            obtain ⟨v1, v2, v3, v4, v5⟩ := (cyc_false_post g fuel).1 d st
              (hds d (by simp)) hdv hsv hfuelv hfalse2
            rw [h2] at v1 v2 v3 v4 v5
            have hfuel2 : cycPot g st1.visited + dsr.length + 2 ≤ fuel := by
              have hanti : dfsPot g st1.visited ≤ dfsPot g st.visited :=
                dfsPot_anti g st.visited st1.visited v2
              rw [cycPot_eq_dfsPot] at hfuel ⊢
              simp only [List.length_cons] at hfuel
              omega
            have hrt1 : ∀ x ∈ st1.stack, Relation.ReflTransGen (Edge g) x cur := by
              rw [v1]
              exact hrt
            obtain ⟨hcyc, l, hl, heq⟩ := ihL cur dsr st1
              (fun x hx => hds x (List.mem_cons_of_mem _ hx)) v4 hrt1
              (fun x hx => hedges x (List.mem_cons_of_mem _ hx)) hfuel2 htrue2
            refine ⟨hcyc, l, hl, ?_⟩
            show (cycLoop g fuel cur dsr st1).2.cyc = st.cyc ++ l
            rw [heq, v5]

theorem black_closed_reach (g : Graph) (st : CycSt)
    (hclosed : ∀ x, x ∈ st.visited → x ∉ st.stack →
      ∀ y ∈ getDeps g x, y ∈ st.visited ∧ y ∉ st.stack) :
    ∀ x y, x ∈ st.visited → x ∉ st.stack →
      Relation.ReflTransGen (Edge g) x y → y ∈ st.visited ∧ y ∉ st.stack := by
  intro x y hxv hxs hrt
  induction hrt with
  | refl => exact ⟨hxv, hxs⟩
  | tail hab hbc ihb =>
    obtain ⟨hbv, hbs⟩ := ihb
    exact hclosed _ hbv hbs _ hbc

theorem cyc_black_inv (g : Graph) : ∀ fuel : Nat,
    (∀ id st, id ∈ univIds g → id ∉ st.visited →
      (∀ x ∈ st.stack, x ∈ st.visited) → st.stack.Nodup →
      CycBlackInv g st →
      cycPot g st.visited + 2 ≤ fuel →
      (cycVisit g fuel id st).1 = false →
      CycBlackInv g (cycVisit g fuel id st).2) ∧
    (∀ cur ds st, (∀ d ∈ ds, d ∈ univIds g) →
      (∀ x ∈ st.stack, x ∈ st.visited) → st.stack.Nodup →
      cur ∈ st.stack →
      (∀ y ∈ getDeps g cur, y ∈ ds ∨ (y ∈ st.visited ∧ y ∉ st.stack)) →
      CycBlackInv g st →
      cycPot g st.visited + ds.length + 2 ≤ fuel →
      (cycLoop g fuel cur ds st).1 = false →
      CycBlackInv g (cycLoop g fuel cur ds st).2) := by
  intro fuel
  induction fuel with
  | zero =>
    constructor
    · intro id st _ _ _ _ _ hfuel
      exact absurd hfuel (by omega)
    · intro cur ds st _ _ _ _ _ _ hfuel
      exact absurd hfuel (by omega)
  | succ fuel ih =>
    obtain ⟨ihV, ihL⟩ := ih
    constructor
    · intro id st hidu hidv hsv hnd hBI hfuel hfalse
      simp only [cycVisit] at hfalse ⊢
      have hdecomp := dfsPot_decomp g st.visited id hidu hidv
      rw [cycPot_eq_dfsPot] at hfuel
      have hfuel2 : cycPot g (st.visited ++ [id]) + (getDeps g id).length + 2 ≤
          fuel := by
        rw [cycPot_eq_dfsPot]
        omega
      have hsv2 : ∀ x ∈ st.stack ++ [id], x ∈ st.visited ++ [id] := by
        intro x hx
        rcases List.mem_append.mp hx with h | h
        · exact List.mem_append.mpr (Or.inl (hsv x h))
        · exact List.mem_append.mpr (Or.inr h)
      have hids : id ∉ st.stack := fun h => hidv (hsv id h)
      have hnd2 : (st.stack ++ [id]).Nodup := by
        rw [List.nodup_append]
        refine ⟨hnd, List.nodup_singleton id, ?_⟩
        intro a ha hax
        rw [List.mem_singleton] at hax
        exact hids (hax ▸ ha)
      have hBI2 : CycBlackInv g
          { st with visited := st.visited ++ [id], stack := st.stack ++ [id] } := by
        constructor
        · intro x hxv hxs y hy
          have hxid : x ≠ id := by
            intro hEq
            exact hxs (hEq ▸ List.mem_append.mpr (Or.inr (by simp)))
          have hxv2 : x ∈ st.visited := by
            rcases List.mem_append.mp hxv with h | h
            · exact h
            · rw [List.mem_singleton] at h
              exact absurd h hxid
          have hxs2 : x ∉ st.stack :=
            fun h => hxs (List.mem_append.mpr (Or.inl h))
          obtain ⟨hyv, hys⟩ := hBI.1 x hxv2 hxs2 y hy
          have hyid : y ≠ id := fun hEq => hidv (hEq ▸ hyv)
          constructor
          · exact List.mem_append.mpr (Or.inl hyv)
          · intro hc
            rcases List.mem_append.mp hc with h | h
            · exact hys h
            · rw [List.mem_singleton] at h
              exact hyid h
        · intro x hxv hxs
          have hxid : x ≠ id := by
            intro hEq
            exact hxs (hEq ▸ List.mem_append.mpr (Or.inr (by simp)))
          have hxv2 : x ∈ st.visited := by
            rcases List.mem_append.mp hxv with h | h
            · exact h
            · rw [List.mem_singleton] at h
              exact absurd h hxid
          exact hBI.2 x hxv2 (fun h => hxs (List.mem_append.mpr (Or.inl h)))
      exact ihL id (getDeps g id)
        { st with visited := st.visited ++ [id], stack := st.stack ++ [id] }
        (getDeps_subset_univ g id) hsv2 hnd2 (List.mem_append.mpr (Or.inr (by simp)))
        (fun y hy => Or.inl hy) hBI2 hfuel2 hfalse
    · intro cur ds st hds hsv hnd hcur hproc hBI hfuel hfalse
      cases ds with
      | nil =>
        constructor
        · intro x hxv hxs y hy
          show y ∈ st.visited ∧ y ∉ st.stack.erase cur
          have hxe : x ∉ st.stack.erase cur := hxs
          by_cases hxc : x = cur
          · subst hxc
            rcases hproc y hy with h | ⟨hyv, hys⟩
            · cases h
            · exact ⟨hyv, fun hc => hys (List.mem_of_mem_erase hc)⟩
          · have hxs2 : x ∉ st.stack := by
              intro hc
              exact hxe (hnd.mem_erase_iff.mpr ⟨hxc, hc⟩)
            obtain ⟨hyv, hys⟩ := hBI.1 x hxv hxs2 y hy
            exact ⟨hyv, fun hc => hys (List.mem_of_mem_erase hc)⟩
        · intro x hxv hxs
          show ¬ Relation.TransGen (Edge g) x x
          by_cases hxc : x = cur
          · subst hxc
            intro htg
            rcases Relation.TransGen.head'_iff.mp htg with ⟨y, hedge, hrt⟩
            rcases hproc y hedge with h | ⟨hyv, hys⟩
            · cases h
            · obtain ⟨_, hcs⟩ := black_closed_reach g st hBI.1 y x hyv hys hrt
              exact hcs hcur
          · have hxs2 : x ∉ st.stack := by
              intro hc
              exact hxs (hnd.mem_erase_iff.mpr ⟨hxc, hc⟩)
            exact hBI.2 x hxv hxs2
      | cons d dsr =>
        simp only [cycLoop] at hfalse ⊢
        by_cases hdv : d ∈ st.visited
        · simp only [if_pos hdv] at hfalse ⊢
          by_cases hdsk : d ∈ st.stack
          · rw [if_pos hdsk] at hfalse
            cases hfalse
          · rw [if_neg hdsk] at hfalse ⊢
            have hfuel2 : cycPot g st.visited + dsr.length + 2 ≤ fuel := by
              simp only [List.length_cons] at hfuel
              omega
            refine ihL cur dsr st (fun x hx => hds x (List.mem_cons_of_mem _ hx))
              hsv hnd hcur ?_ hBI hfuel2 hfalse
            intro y hy
            rcases hproc y hy with h | h
            · rcases List.mem_cons.mp h with h2 | h2
              · exact Or.inr ⟨h2 ▸ hdv, h2 ▸ hdsk⟩
              · exact Or.inl h2
            · exact Or.inr h
        · simp only [if_neg hdv] at hfalse ⊢
          rcases hv : cycVisit g fuel d st with ⟨b, st1⟩
          rw [hv] at hfalse
          cases b with
          | true =>
            have hft : (true : Bool) = false := hfalse
            cases hft
          | false =>
            have hfalse2 : (cycLoop g fuel cur dsr st1).1 = false := hfalse
            have hvfalse : (cycVisit g fuel d st).1 = false := by rw [hv]
            have h2 : (cycVisit g fuel d st).2 = st1 := by rw [hv]
            have hfuelv : cycPot g st.visited + 2 ≤ fuel := by
              simp only [List.length_cons] at hfuel
              omega
            have hBI1 := ihV d st (hds d (by simp)) hdv hsv hnd hBI hfuelv hvfalse
            rw [h2] at hBI1
            obtain ⟨v1, v2, v3, v4, v5⟩ := (cyc_false_post g fuel).1 d st
              (hds d (by simp)) hdv hsv hfuelv hvfalse
            rw [h2] at v1 v2 v3 v4 v5
            have hfuel2 : cycPot g st1.visited + dsr.length + 2 ≤ fuel := by
              have hanti : dfsPot g st1.visited ≤ dfsPot g st.visited :=
                dfsPot_anti g st.visited st1.visited v2
              rw [cycPot_eq_dfsPot] at hfuel ⊢
              simp only [List.length_cons] at hfuel
              omega
            have hproc1 : ∀ y ∈ getDeps g cur,
                y ∈ dsr ∨ (y ∈ st1.visited ∧ y ∉ st1.stack) := by
              intro y hy
              rcases hproc y hy with h | ⟨hyv, hys⟩
              · rcases List.mem_cons.mp h with h2 | h2
                · refine Or.inr ⟨h2 ▸ v3, ?_⟩
                  rw [v1]
                  exact h2 ▸ (fun hc => hdv (hsv d hc))
                · exact Or.inl h2
              · refine Or.inr ⟨v2 y hyv, ?_⟩
                rw [v1]
                exact hys
            have hresult := ihL cur dsr st1
              (fun x hx => hds x (List.mem_cons_of_mem _ hx)) v4
              (v1 ▸ hnd) (v1 ▸ hcur) hproc1 hBI1 hfuel2 hfalse2
            exact hresult

theorem detectLoop_acyclic (g : Graph) (hacy : Acyclic g) :
    ∀ ks st, (∀ k ∈ ks, k ∈ univIds g) → st.stack = [] →
      detectLoop g ks st = [] := by
  intro ks
  induction ks with
  | nil => intro st _ _; rfl
  | cons k ks ih =>
    intro st hks hstack
    simp only [detectLoop]
    by_cases hkv : k ∈ st.visited
    · rw [if_pos hkv]
      exact ih st (fun x hx => hks x (List.mem_cons_of_mem _ hx)) hstack
    · rw [if_neg hkv]
      have hfuel : cycPot g st.visited + 2 ≤ cycFuel g := by
        have h := dfsPot_anti g [] st.visited
          (fun x hx => absurd hx (List.not_mem_nil x))
        show cycPot g st.visited + 2 ≤ cycPot g [] + 2
        rw [cycPot_eq_dfsPot, cycPot_eq_dfsPot]
        omega
      have hemp : ∀ x ∈ st.stack, x ∈ st.visited := by
        rw [hstack]
        intro x hx
        cases hx
      rcases hv : cycVisit g (cycFuel g) k st with ⟨b, st1⟩
      cases b with
      | true =>
        exfalso
        have hvt : (cycVisit g (cycFuel g) k st).1 = true := by rw [hv]
        have hrt : ∀ x ∈ st.stack, Relation.ReflTransGen (Edge g) x k := by
          rw [hstack]
          intro x hx
          cases hx
        obtain ⟨⟨z, hz⟩, _⟩ := (cyc_true_cycle g (cycFuel g)).1 k st
          (hks k (by simp)) hkv hemp hrt hfuel hvt
        exact hacy z hz
      | false =>
        have hvf : (cycVisit g (cycFuel g) k st).1 = false := by rw [hv]
        have h2 : (cycVisit g (cycFuel g) k st).2 = st1 := by rw [hv]
        obtain ⟨v1, v2, v3, v4, v5⟩ := (cyc_false_post g (cycFuel g)).1 k st
          (hks k (by simp)) hkv hemp hfuel hvf
        rw [h2] at v1
        exact ih st1 (fun x hx => hks x (List.mem_cons_of_mem _ hx))
          (by rw [v1, hstack])

theorem detectLoop_complete (g : Graph) :
    ∀ ks st, (∀ k ∈ ks, k ∈ univIds g) → st.stack = [] →
      CycBlackInv g st →
      detectLoop g ks st = [] →
      ∀ k ∈ ks, ¬ Relation.TransGen (Edge g) k k := by
  intro ks
  induction ks with
  | nil =>
    intro st _ _ _ _ k hk
    cases hk
  | cons k ks ih =>
    intro st hks hstack hBI hres k2 hk2
    simp only [detectLoop] at hres
    have hemp : ∀ x ∈ st.stack, x ∈ st.visited := by
      rw [hstack]
      intro x hx
      cases hx
    by_cases hkv : k ∈ st.visited
    · rw [if_pos hkv] at hres
      rcases List.mem_cons.mp hk2 with h | h
      · subst h
        exact hBI.2 k2 hkv (by rw [hstack]; intro hc; cases hc)
      · exact ih st (fun x hx => hks x (List.mem_cons_of_mem _ hx)) hstack
          hBI hres k2 h
    · rw [if_neg hkv] at hres
      have hfuel : cycPot g st.visited + 2 ≤ cycFuel g := by
        have h := dfsPot_anti g [] st.visited
          (fun x hx => absurd hx (List.not_mem_nil x))
        show cycPot g st.visited + 2 ≤ cycPot g [] + 2
        rw [cycPot_eq_dfsPot, cycPot_eq_dfsPot]
        omega
      rcases hv : cycVisit g (cycFuel g) k st with ⟨b, st1⟩
      rw [hv] at hres
      cases b with
      | true =>
        exfalso
        have hvt : (cycVisit g (cycFuel g) k st).1 = true := by rw [hv]
        have h2 : (cycVisit g (cycFuel g) k st).2 = st1 := by rw [hv]
        have hrt : ∀ x ∈ st.stack, Relation.ReflTransGen (Edge g) x k := by
          rw [hstack]
          intro x hx
          cases hx
        obtain ⟨_, l, hl, heq⟩ := (cyc_true_cycle g (cycFuel g)).1 k st
          (hks k (by simp)) hkv hemp hrt hfuel hvt
        rw [h2] at heq
        have : st1.cyc ≠ [] := by
          rw [heq]
          intro hc
          rcases List.append_eq_nil.mp hc with ⟨_, h⟩
          exact hl h
        exact this hres
      | false =>
        have hvf : (cycVisit g (cycFuel g) k st).1 = false := by rw [hv]
        have h2 : (cycVisit g (cycFuel g) k st).2 = st1 := by rw [hv]
        obtain ⟨v1, v2, v3, v4, v5⟩ := (cyc_false_post g (cycFuel g)).1 k st
          (hks k (by simp)) hkv hemp hfuel hvf
        have hBI1 := (cyc_black_inv g (cycFuel g)).1 k st (hks k (by simp)) hkv
          hemp (by rw [hstack]; exact List.nodup_nil) hBI hfuel hvf
        rw [h2] at v1 v2 v3 v4 v5 hBI1
        rcases List.mem_cons.mp hk2 with h | h
        · subst h
          exact hBI1.2 k2 v3 (by rw [v1, hstack]; intro hc; cases hc)
        · exact ih st1 (fun x hx => hks x (List.mem_cons_of_mem _ hx))
            (by rw [v1, hstack]) hBI1 hres k2 h

/-- C6 (amended): the cycle-detection DFS reports no cycle exactly when the
adjacency map is acyclic; it runs over the full node set, so disconnected
cyclic subgraphs are found too.  (When it reports a cycle, the returned
list is non-empty, but it may also contain cells that lie on the DFS path
into the cycle and are on no cycle themselves — see the counterexample.) -/
theorem detectCyclesGraph_empty_iff (g : Graph) :
    detectCyclesGraph g = [] ↔ Acyclic g := by
  constructor
  · intro hres0 v htg
    have hres : detectLoop g (g.map (fun p => p.1)) ⟨[], [], []⟩ = [] := hres0
    have hkeys : ∀ k ∈ g.map (fun p => p.1), k ∈ univIds g := by
      intro k hk
      exact List.mem_append.mpr (Or.inl hk)
    have hcomplete := detectLoop_complete g (g.map (fun p => p.1)) ⟨[], [], []⟩
      hkeys rfl ⟨fun x hx => absurd hx (List.not_mem_nil x),
        fun x hx => absurd hx (List.not_mem_nil x)⟩ hres
    have hvk : v ∈ g.map (fun p => p.1) := by
      rcases Relation.TransGen.head'_iff.mp htg with ⟨b, hedge, _⟩
      exact mem_keys_of_edge g v b hedge
    exact hcomplete v hvk htg
  · intro hacy
    exact detectLoop_acyclic g hacy (g.map (fun p => p.1)) ⟨[], [], []⟩
      (fun k hk => List.mem_append.mpr (Or.inl hk)) rfl

/-- C6 counterexample: on the rooted-cycle graph (`R → A`, `A ↔ B`) the
detector returns `["B", "A", "A", "R"]`; `R` is in the returned list but
lies on no cycle, so not every returned id is a member of the detected
cycle (and ids repeat). -/
theorem detectCycles_path_counterexample :
    detectCyclesGraph rootedCycleGraph = ["B", "A", "A", "R"] ∧
    "R" ∈ detectCyclesGraph rootedCycleGraph ∧
    ¬ Relation.TransGen (Edge rootedCycleGraph) "R" "R" := by
  refine ⟨by decide, by decide, ?_⟩
  intro htg
  rcases Relation.TransGen.tail'_iff.mp htg with ⟨b, _, hedge⟩
  have h2 := getDeps_subset_flatten rootedCycleGraph b "R" hedge
  have h3 : (rootedCycleGraph.map (fun p => p.2)).flatten = ["A", "B", "A"] := by
    decide
  rw [h3] at h2
  exact absurd h2 (by decide)

theorem mapGet_mapSet_self (m : DegMap) (k : String) (v : Int) :
    mapGet (mapSet m k v) k = some v := by
  unfold mapGet mapSet
  by_cases h : m.any (fun p => p.1 == k) = true
  · rw [if_pos h, List.find?_map]
    have hcomp : ((fun p => p.1 == k) ∘
        (fun (p : String × Int) => if p.1 == k then (k, v) else p)) =
        (fun (p : String × Int) => p.1 == k) := by
      funext p
      by_cases hpk : p.1 = k
      · simp [Function.comp, hpk]
      · simp [Function.comp, beq_eq_false_iff_ne.mpr hpk]
    rw [hcomp]
    rcases List.any_eq_true.mp h with ⟨p0, hp0m, hp0⟩
    rcases hf : m.find? (fun p => p.1 == k) with _ | p1
    · exact absurd (List.find?_eq_none.mp hf p0 hp0m) (by simp [hp0])
    · have hp1 := List.find?_some hf
      rw [hf]
      simp [beq_iff_eq.mp hp1]
  · rw [if_neg h, List.find?_append]
    have hnone : m.find? (fun p => p.1 == k) = none := by
      apply List.find?_eq_none.mpr
      intro p hp hpk
      exact h (List.any_eq_true.mpr ⟨p, hp, hpk⟩)
    rw [hnone]
    simp [List.find?]

theorem mapGet_mapSet_ne (m : DegMap) (k k' : String) (v : Int) (h : k' ≠ k) :
    mapGet (mapSet m k v) k' = mapGet m k' := by
  unfold mapGet mapSet
  by_cases hany : m.any (fun p => p.1 == k) = true
  · rw [if_pos hany, List.find?_map]
    have hcomp : ((fun p => p.1 == k') ∘
        (fun (p : String × Int) => if p.1 == k then (k, v) else p)) =
        (fun (p : String × Int) => p.1 == k') := by
      funext p
      by_cases hpk : p.1 = k
      · simp [Function.comp, hpk, beq_eq_false_iff_ne.mpr (Ne.symm h)]
      · simp [Function.comp, beq_eq_false_iff_ne.mpr hpk]
    rw [hcomp]
    rcases hf : m.find? (fun p => p.1 == k') with _ | p0
    · rw [hf]
      rfl
    · have hp0 := List.find?_some hf
      rw [hf]
      have hne : p0.1 ≠ k := by
        rw [beq_iff_eq.mp hp0]
        exact h
      simp [hne]
  · rw [if_neg hany, List.find?_append]
    have hk' : ((k, v).1 == k') = false := beq_eq_false_iff_ne.mpr (Ne.symm h)
    rcases hf : m.find? (fun p => p.1 == k') with _ | p0 <;>
      rw [hf] <;> simp [List.find?, hk']

theorem degVal_eq_getD (m : DegMap) (v : String) :
    degVal m v = (mapGet m v).getD 0 := rfl

theorem incrFold_mapGet (ds : List String) :
    ∀ (m : DegMap) (v : String),
      mapGet (ds.foldl (fun m2 d => mapSet m2 d (degVal m2 d + 1)) m) v =
        if v ∈ ds then some (degVal m v + (ds.count v : Int)) else mapGet m v := by
  induction ds with
  | nil =>
    intro m v
    simp
  | cons d ds ih =>
    intro m v
    rw [List.foldl_cons, ih]
    by_cases hvd : v = d
    · subst hvd
      have hself : mapGet (mapSet m v (degVal m v + 1)) v = some (degVal m v + 1) :=
      mapGet_mapSet_self m v _
      have hdv : degVal (mapSet m v (degVal m v + 1)) v = degVal m v + 1 := by
        rw [degVal_eq_getD, hself]
        rfl
      by_cases hmem : v ∈ ds
      · rw [if_pos hmem, if_pos (List.mem_cons_self v ds), hdv,
          List.count_cons_self]
        congr 1
        push_cast
        ring
      · rw [if_neg hmem, if_pos (List.mem_cons_self v ds), hself,
          List.count_cons_self, List.count_eq_zero.mpr hmem]
        rfl
    · have hget : mapGet (mapSet m d (degVal m d + 1)) v = mapGet m v :=
        mapGet_mapSet_ne m d v _ hvd
      have hdv : degVal (mapSet m d (degVal m d + 1)) v = degVal m v := by
        rw [degVal_eq_getD, hget]
        rfl
      have hmm : v ∈ d :: ds ↔ v ∈ ds := by
        simp [List.mem_cons, hvd]
      rw [hget, hdv, List.count_cons_of_ne hvd]
      by_cases hmem : v ∈ ds
      · rw [if_pos hmem, if_pos (hmm.mpr hmem)]
      · rw [if_neg hmem, if_neg (fun hc => hmem (hmm.mp hc))]

theorem count_flatten_zero (entries : Graph) (v : String)
    (h : v ∉ (entries.map (fun p => p.2)).flatten) :
    (entries.map (fun p => p.2.count v)).sum = 0 := by
  apply List.sum_eq_zero_iff.mpr
  intro x hx
  rcases List.mem_map.mp hx with ⟨p, hp, rfl⟩
  apply List.count_eq_zero.mpr
  intro hv
  exact h (List.mem_flatten.mpr ⟨p.2, List.mem_map_of_mem _ hp, hv⟩)

theorem inDegIncr_mapGet (entries : Graph) :
    ∀ (m : DegMap) (v : String),
      mapGet (entries.foldl
        (fun m p => p.2.foldl (fun m2 d => mapSet m2 d (degVal m2 d + 1)) m) m) v =
      if v ∈ (entries.map (fun p => p.2)).flatten then
        some (degVal m v + (((entries.map (fun p => p.2.count v)).sum : Nat) : Int))
      else mapGet m v := by
  induction entries with
  | nil =>
    intro m v
    simp
  | cons p entries ih =>
    intro m v
    rw [List.foldl_cons, ih]
    have hmm : v ∈ ((p :: entries).map (fun p => p.2)).flatten ↔
        v ∈ p.2 ∨ v ∈ (entries.map (fun p => p.2)).flatten := by
      simp
    by_cases hvp : v ∈ p.2
    · have hget : mapGet (p.2.foldl (fun m2 d => mapSet m2 d (degVal m2 d + 1)) m) v =
          some (degVal m v + (p.2.count v : Int)) := by
        rw [incrFold_mapGet, if_pos hvp]
      have hdv : degVal (p.2.foldl (fun m2 d => mapSet m2 d (degVal m2 d + 1)) m) v =
          degVal m v + (p.2.count v : Int) := by
        rw [degVal_eq_getD, hget]
        rfl
      rw [if_pos (hmm.mpr (Or.inl hvp))]
      by_cases hmem : v ∈ (entries.map (fun p => p.2)).flatten
      · rw [if_pos hmem, hdv, List.map_cons, List.sum_cons]
        congr 1
        push_cast
        ring
      · rw [if_neg hmem, hget, List.map_cons, List.sum_cons,
          count_flatten_zero entries v hmem]
        norm_num
    · have hget : mapGet (p.2.foldl (fun m2 d => mapSet m2 d (degVal m2 d + 1)) m) v =
          mapGet m v := by
        rw [incrFold_mapGet, if_neg hvp]
      have hdv : degVal (p.2.foldl (fun m2 d => mapSet m2 d (degVal m2 d + 1)) m) v =
          degVal m v := by
        rw [degVal_eq_getD, hget]
        rfl
      have hc0 : p.2.count v = 0 := List.count_eq_zero.mpr hvp
      by_cases hmem : v ∈ (entries.map (fun p => p.2)).flatten
      · rw [if_pos hmem, if_pos (hmm.mpr (Or.inr hmem)), hdv, List.map_cons,
          List.sum_cons, hc0]
        norm_num
      · rw [if_neg hmem, if_neg (fun hc => (hmm.mp hc).elim hvp hmem), hget]

theorem degBase_mapGet (g : Graph) :
    ∀ (m : DegMap) (v : String),
      mapGet (g.foldl (fun m p => mapSet m p.1 0) m) v =
        if v ∈ g.map (fun p => p.1) then some 0 else mapGet m v := by
  induction g with
  | nil =>
    intro m v
    simp
  | cons p g ih =>
    intro m v
    rw [List.foldl_cons, ih]
    by_cases hvp : v = p.1
    · subst hvp
      by_cases hmem : p.1 ∈ g.map (fun q => q.1)
      · rw [if_pos hmem, if_pos (by simp)]
      · rw [if_neg hmem, if_pos (by simp), mapGet_mapSet_self]
    · have hmm : v ∈ (p :: g).map (fun p => p.1) ↔ v ∈ g.map (fun p => p.1) := by
        simp [hvp]
      rw [mapGet_mapSet_ne m p.1 v 0 hvp]
      by_cases hmem : v ∈ g.map (fun p => p.1)
      · rw [if_pos hmem, if_pos (hmm.mpr hmem)]
      · rw [if_neg hmem, if_neg (fun hc => hmem (hmm.mp hc))]

theorem mem_flatten_key (g : Graph) (hwf : WFGraph g) (v : String)
    (h : v ∈ (g.map (fun p => p.2)).flatten) : v ∈ g.map (fun p => p.1) := by
  rcases List.mem_flatten.mp h with ⟨l, hl, hv⟩
  rcases List.mem_map.mp hl with ⟨p, hp, rfl⟩
  exact hwf p hp v hv

theorem mapGet_inDegInit (g : Graph) (hwf : WFGraph g) (v : String) :
    mapGet (inDegInit g) v =
      if v ∈ g.map (fun p => p.1) then some (inDeg g v : Int) else none := by
  unfold inDegInit
  rw [inDegIncr_mapGet]
  by_cases hflat : v ∈ (g.map (fun p => p.2)).flatten
  · have hkey := mem_flatten_key g hwf v hflat
    rw [if_pos hflat, if_pos hkey]
    have hdv : degVal (g.foldl (fun m p => mapSet m p.1 0) ([] : DegMap)) v = 0 := by
      rw [degVal_eq_getD, degBase_mapGet, if_pos hkey]
      rfl
    rw [hdv]
    unfold inDeg
    norm_num
  · rw [if_neg hflat, degBase_mapGet]
    have hind : inDeg g v = 0 := count_flatten_zero g v hflat
    rw [hind]
    by_cases hkey : v ∈ g.map (fun p => p.1)
    · rw [if_pos hkey, if_pos hkey]
      norm_num
    · rw [if_neg hkey, if_neg hkey]
      rfl

theorem kahnFold_fst (ds : List String) :
    ∀ (deg : DegMap) (bs : List String) (v : String),
      mapGet (ds.foldl
        (fun acc2 d =>
          let nd := degVal acc2.1 d - 1
          (mapSet acc2.1 d nd, if nd == 0 then acc2.2 ++ [d] else acc2.2))
        (deg, bs)).1 v =
      if v ∈ ds then some (degVal deg v - (ds.count v : Int)) else mapGet deg v := by
  induction ds with
  | nil =>
    intro deg bs v
    simp
  | cons d ds ih =>
    intro deg bs v
    rw [List.foldl_cons]
    have hstep : ∀ (bs' : List String),
        mapGet (List.foldl
          (fun acc2 d =>
            let nd := degVal acc2.1 d - 1
            (mapSet acc2.1 d nd, if nd == 0 then acc2.2 ++ [d] else acc2.2))
          (mapSet deg d (degVal deg d - 1), bs') ds).1 v =
        if v ∈ ds then
          some (degVal (mapSet deg d (degVal deg d - 1)) v - (ds.count v : Int))
        else mapGet (mapSet deg d (degVal deg d - 1)) v :=
      fun bs' => ih (mapSet deg d (degVal deg d - 1)) bs' v
    show mapGet (List.foldl _ (mapSet deg d (degVal deg d - 1),
      if (degVal deg d - 1 == 0) = true then bs ++ [d] else bs) ds).1 v = _
    rw [hstep]
    by_cases hvd : v = d
    · subst hvd
      have hself : mapGet (mapSet deg v (degVal deg v - 1)) v =
          some (degVal deg v - 1) := mapGet_mapSet_self deg v _
      have hdv : degVal (mapSet deg v (degVal deg v - 1)) v = degVal deg v - 1 := by
        rw [degVal_eq_getD, hself]
        rfl
      by_cases hmem : v ∈ ds
      · rw [if_pos hmem, if_pos (List.mem_cons_self v ds), hdv,
          List.count_cons_self]
        congr 1
        push_cast
        ring
      · rw [if_neg hmem, if_pos (List.mem_cons_self v ds), hself,
          List.count_cons_self, List.count_eq_zero.mpr hmem]
        rfl
    · have hget : mapGet (mapSet deg d (degVal deg d - 1)) v = mapGet deg v :=
        mapGet_mapSet_ne deg d v _ hvd
      have hdv : degVal (mapSet deg d (degVal deg d - 1)) v = degVal deg v := by
        rw [degVal_eq_getD, hget]
        rfl
      have hmm : v ∈ d :: ds ↔ v ∈ ds := by
        simp [List.mem_cons, hvd]
      rw [hget, hdv, List.count_cons_of_ne hvd]
      by_cases hmem : v ∈ ds
      · rw [if_pos hmem, if_pos (hmm.mpr hmem)]
      · rw [if_neg hmem, if_neg (fun hc => hmem (hmm.mp hc))]

theorem kahnFold_mem (ds : List String) :
    ∀ (deg : DegMap) (bs : List String) (v : String),
      (v ∈ (ds.foldl
        (fun acc2 d =>
          let nd := degVal acc2.1 d - 1
          (mapSet acc2.1 d nd, if nd == 0 then acc2.2 ++ [d] else acc2.2))
        (deg, bs)).2 ↔
      v ∈ bs ∨ (1 ≤ degVal deg v ∧ degVal deg v ≤ (ds.count v : Int))) := by
  induction ds with
  | nil =>
    intro deg bs v
    simp only [List.foldl_nil, List.count_nil, Nat.cast_zero]
    constructor
    · exact Or.inl
    · rintro (h | ⟨h1, h2⟩)
      · exact h
      · exact absurd h2 (by omega)
  | cons d ds ih =>
    intro deg bs v
    rw [List.foldl_cons]
    have hstep : ∀ (bs' : List String),
        (v ∈ (List.foldl
          (fun acc2 d =>
            let nd := degVal acc2.1 d - 1
            (mapSet acc2.1 d nd, if nd == 0 then acc2.2 ++ [d] else acc2.2))
          (mapSet deg d (degVal deg d - 1), bs') ds).2 ↔
        v ∈ bs' ∨ (1 ≤ degVal (mapSet deg d (degVal deg d - 1)) v ∧
          degVal (mapSet deg d (degVal deg d - 1)) v ≤ (ds.count v : Int))) :=
      fun bs' => ih (mapSet deg d (degVal deg d - 1)) bs' v
    show v ∈ (List.foldl _ (mapSet deg d (degVal deg d - 1),
      if (degVal deg d - 1 == 0) = true then bs ++ [d] else bs) ds).2 ↔ _
    rw [hstep]
    by_cases hvd : v = d
    · subst hvd
      have hdv : degVal (mapSet deg v (degVal deg v - 1)) v = degVal deg v - 1 := by
        rw [degVal_eq_getD, mapGet_mapSet_self]
        rfl
      rw [hdv, List.count_cons_self]
      by_cases hz : (degVal deg v - 1 == 0) = true
      · have hz' : degVal deg v = 1 := by
          have := beq_iff_eq.mp hz
          omega
        rw [if_pos hz]
        constructor
        · intro _
          refine Or.inr ⟨by omega, ?_⟩
          rw [hz']
          push_cast
          omega
        · intro _
          exact Or.inl (List.mem_append.mpr (Or.inr (List.mem_singleton.mpr rfl)))
      · have hz' : degVal deg v ≠ 1 := by
          intro hc
          exact hz (beq_iff_eq.mpr (by omega))
        rw [if_neg hz]
        have harith : (1 ≤ degVal deg v - 1 ∧ degVal deg v - 1 ≤ (ds.count v : Int)) ↔
            (1 ≤ degVal deg v ∧ degVal deg v ≤ ((ds.count v : Nat) : Int) + 1) := by
          constructor
          · intro ⟨h1, h2⟩
            exact ⟨by omega, by omega⟩
          · intro ⟨h1, h2⟩
            constructor
            · rcases lt_or_eq_of_le h1 with h | h
              · omega
              · exact absurd h.symm hz'
            · omega
        rw [harith]
        push_cast
        rfl
    · have hdv : degVal (mapSet deg d (degVal deg d - 1)) v = degVal deg v := by
        rw [degVal_eq_getD, mapGet_mapSet_ne deg d v _ hvd]
        rfl
      have hbs : ∀ (c : Bool),
          (v ∈ if c = true then bs ++ [d] else bs) ↔ v ∈ bs := by
        intro c
        cases c
        · simp
        · simp [hvd]
      rw [hdv, List.count_cons_of_ne hvd, hbs]

theorem kahnFold_nodup (ds : List String) :
    ∀ (deg : DegMap) (bs : List String), bs.Nodup →
      (∀ v ∈ bs, degVal deg v ≤ 0) →
      ((ds.foldl
        (fun acc2 d =>
          let nd := degVal acc2.1 d - 1
          (mapSet acc2.1 d nd, if nd == 0 then acc2.2 ++ [d] else acc2.2))
        (deg, bs)).2.Nodup) := by
  induction ds with
  | nil =>
    intro deg bs hnd _
    exact hnd
  | cons d ds ih =>
    intro deg bs hnd hz
    rw [List.foldl_cons]
    show (List.foldl _ (mapSet deg d (degVal deg d - 1),
      if (degVal deg d - 1 == 0) = true then bs ++ [d] else bs) ds).2.Nodup
    have hdvd : degVal (mapSet deg d (degVal deg d - 1)) d = degVal deg d - 1 := by
      rw [degVal_eq_getD, mapGet_mapSet_self]
      rfl
    by_cases hc : (degVal deg d - 1 == 0) = true
    · rw [if_pos hc]
      have hd1 : degVal deg d = 1 := by
        have := beq_iff_eq.mp hc
        omega
      have hdbs : d ∉ bs := by
        intro hdb
        have := hz d hdb
        omega
      refine ih _ _ (by simp [List.nodup_append, hnd, hdbs]) ?_
      intro v hv
      rcases List.mem_append.mp hv with hvb | hvd
      · have hne : v ≠ d := fun hc2 => hdbs (hc2 ▸ hvb)
        rw [degVal_eq_getD, mapGet_mapSet_ne deg d v _ hne]
        exact hz v hvb
      · have hvd2 : v = d := List.mem_singleton.mp hvd
        subst hvd2
        rw [hdvd]
        omega
    · rw [if_neg hc]
      refine ih _ _ hnd ?_
      intro v hv
      by_cases hvd : v = d
      · subst hvd
        rw [hdvd]
        have := hz v hv
        omega
      · rw [degVal_eq_getD, mapGet_mapSet_ne deg d v _ hvd]
        exact hz v hv

theorem kahnStep_fst_char (g : Graph) (deg : DegMap) (u v : String) :
    mapGet (kahnStep g deg u).1 v =
      if v ∈ getDeps g u then
        some (degVal deg v - ((getDeps g u).count v : Int))
      else mapGet deg v := by
  unfold kahnStep
  exact kahnFold_fst (getDeps g u) deg [] v

theorem kahnStep_mem (g : Graph) (deg : DegMap) (u v : String) :
    v ∈ (kahnStep g deg u).2 ↔
      1 ≤ degVal deg v ∧ degVal deg v ≤ ((getDeps g u).count v : Int) := by
  unfold kahnStep
  rw [kahnFold_mem (getDeps g u) deg [] v]
  simp

theorem kahnStep_nodup (g : Graph) (deg : DegMap) (u : String) :
    (kahnStep g deg u).2.Nodup := by
  unfold kahnStep
  exact kahnFold_nodup (getDeps g u) deg [] List.nodup_nil
    (fun v hv => absurd hv (List.not_mem_nil v))

theorem nodup_getDeps (g : Graph) (han : AdjNodup g) (u : String) :
    (getDeps g u).Nodup := by
  unfold getDeps
  cases hf : g.find? (fun p => p.1 == u) with
  | none => exact List.nodup_nil
  | some p => exact han p (List.mem_of_find?_eq_some hf)

theorem wf_getDeps (g : Graph) (hwf : WFGraph g) (u : String) :
    ∀ d ∈ getDeps g u, d ∈ g.map (fun p => p.1) := by
  intro d hd
  unfold getDeps at hd
  cases hf : g.find? (fun p => p.1 == u) with
  | none =>
    rw [hf] at hd
    cases hd
  | some p =>
    rw [hf] at hd
    exact hwf p (List.mem_of_find?_eq_some hf) d hd

theorem mapGet_of_mem_nodup (m : DegMap) (p : String × Int)
    (hnd : (m.map (fun q => q.1)).Nodup) (hp : p ∈ m) :
    mapGet m p.1 = some p.2 := by
  induction m with
  | nil => cases hp
  | cons q m ih =>
    rcases List.mem_cons.mp hp with h | h
    · subst h
      unfold mapGet
      simp [List.find?]
    · have hq : q.1 ≠ p.1 := by
        intro hc
        have : p.1 ∈ m.map (fun q => q.1) := List.mem_map_of_mem _ h
        rw [List.map_cons] at hnd
        exact (List.nodup_cons.mp hnd).1 (hc ▸ this)
      unfold mapGet
      rw [List.find?_cons_of_neg _ (by simp [hq])]
      exact ih (List.nodup_cons.mp (by rw [List.map_cons] at hnd; exact hnd)).2 h

theorem mem_seedQueue (m : DegMap) (hnd : (m.map (fun p => p.1)).Nodup)
    (v : String) : v ∈ seedQueue m ↔ mapGet m v = some 0 := by
  constructor
  · intro hv
    unfold seedQueue at hv
    rcases List.mem_map.mp hv with ⟨p, hpf, rfl⟩
    have hpm := List.mem_of_mem_filter hpf
    have hp2b := List.of_mem_filter hpf
    have hp2 : p.2 = 0 := by simpa using hp2b
    rw [mapGet_of_mem_nodup m p hnd hpm, hp2]
  · intro hv
    unfold mapGet at hv
    rcases Option.map_eq_some'.mp hv with ⟨p, hpf, hp2⟩
    have hpm := List.mem_of_find?_eq_some hpf
    have hp1b := List.find?_some hpf
    have hp1 : p.1 = v := by simpa using hp1b
    unfold seedQueue
    refine List.mem_map.mpr ⟨p, ?_, hp1⟩
    exact List.mem_filter.mpr ⟨hpm, beq_iff_eq.mpr hp2⟩

theorem nodup_seedQueue (m : DegMap) (hnd : (m.map (fun p => p.1)).Nodup) :
    (seedQueue m).Nodup := by
  have hsub : (seedQueue m).Sublist (m.map (fun p => p.1)) := by
    unfold seedQueue
    exact (List.filter_sublist _).map _
  exact hsub.nodup hnd

theorem edgesFrom_append (g : Graph) (l1 l2 : List String) (v : String) :
    edgesFrom g (l1 ++ l2) v = edgesFrom g l1 v + edgesFrom g l2 v := by
  unfold edgesFrom
  rw [List.map_append, List.sum_append]

theorem edgesFrom_singleton (g : Graph) (u v : String) :
    edgesFrom g [u] v = (getDeps g u).count v := by
  unfold edgesFrom
  simp

theorem edgesFrom_perm (g : Graph) (l1 l2 : List String) (h : l1.Perm l2)
    (v : String) : edgesFrom g l1 v = edgesFrom g l2 v := by
  unfold edgesFrom
  exact (h.map _).sum_eq

theorem edgesFrom_keys (g : Graph) (v : String)
    (hk : (g.map (fun p => p.1)).Nodup) :
    edgesFrom g (g.map (fun p => p.1)) v = inDeg g v := by
  unfold edgesFrom inDeg
  rw [List.map_map]
  congr 1
  apply List.map_congr_left
  intro p hp
  show (getDeps g p.1).count v = p.2.count v
  rw [getDeps_eq_of_mem g p hk hp]

theorem compl_perm (keys res : List String) (hknd : keys.Nodup)
    (hss : ∀ x ∈ res, x ∈ keys) (hnd : res.Nodup) :
    keys.Perm (res ++ keys.filter (fun w => !res.contains w)) := by
  have h1 : (keys.filter (fun w => res.contains w) ++
      keys.filter (fun w => !res.contains w)).Perm keys :=
    List.filter_append_perm _ keys
  have h2 : (keys.filter (fun w => res.contains w)).Perm res := by
    apply List.perm_of_nodup_nodup_toFinset_eq
    · exact hknd.filter _
    · exact hnd
    · ext a
      simp only [List.mem_toFinset, List.mem_filter]
      constructor
      · intro ⟨_, hc⟩
        exact List.elem_iff.mp hc
      · intro ha
        exact ⟨hss a ha, List.elem_iff.mpr ha⟩
  exact h1.symm.trans (h2.append_right _)

theorem inDeg_split (g : Graph) (res : List String) (v : String)
    (hk : (g.map (fun p => p.1)).Nodup)
    (hss : ∀ x ∈ res, x ∈ g.map (fun p => p.1)) (hnd : res.Nodup) :
    inDeg g v = edgesFrom g res v +
      edgesFrom g ((g.map (fun p => p.1)).filter (fun w => !res.contains w)) v := by
  rw [← edgesFrom_keys g v hk,
    edgesFrom_perm g _ _ (compl_perm (g.map (fun p => p.1)) res hk hss hnd) v,
    edgesFrom_append]

theorem edgesFrom_le_inDeg (g : Graph) (res : List String) (v : String)
    (hk : (g.map (fun p => p.1)).Nodup)
    (hss : ∀ x ∈ res, x ∈ g.map (fun p => p.1)) (hnd : res.Nodup) :
    edgesFrom g res v ≤ inDeg g v := by
  rw [inDeg_split g res v hk hss hnd]
  omega

theorem count_eq_zero_of_inDeg_eq (g : Graph) (res : List String) (v u : String)
    (hk : (g.map (fun p => p.1)).Nodup)
    (hss : ∀ x ∈ res, x ∈ g.map (fun p => p.1)) (hnd : res.Nodup)
    (hu : u ∈ g.map (fun p => p.1)) (hur : u ∉ res)
    (heq : inDeg g v = edgesFrom g res v) :
    (getDeps g u).count v = 0 := by
  have hs := inDeg_split g res v hk hss hnd
  have h0 : edgesFrom g ((g.map (fun p => p.1)).filter
      (fun w => !res.contains w)) v = 0 := by omega
  have humem : u ∈ (g.map (fun p => p.1)).filter (fun w => !res.contains w) := by
    refine List.mem_filter.mpr ⟨hu, ?_⟩
    simp only [Bool.not_eq_true']
    exact (Bool.not_eq_true _).mp (fun hc => hur (List.elem_iff.mp hc))
  unfold edgesFrom at h0
  exact List.sum_eq_zero_iff.mp h0 ((getDeps g u).count v)
    (List.mem_map_of_mem _ humem)

theorem exists_source_of_lt (g : Graph) (res : List String) (v : String)
    (hk : (g.map (fun p => p.1)).Nodup)
    (hss : ∀ x ∈ res, x ∈ g.map (fun p => p.1)) (hnd : res.Nodup)
    (hlt : edgesFrom g res v < inDeg g v) :
    ∃ u, u ∈ g.map (fun p => p.1) ∧ u ∉ res ∧ Edge g u v := by
  have hs := inDeg_split g res v hk hss hnd
  have hpos : 0 < edgesFrom g ((g.map (fun p => p.1)).filter
      (fun w => !res.contains w)) v := by omega
  by_contra hno
  push_neg at hno
  have hzero : edgesFrom g ((g.map (fun p => p.1)).filter
      (fun w => !res.contains w)) v = 0 := by
    unfold edgesFrom
    apply List.sum_eq_zero_iff.mpr
    intro x hx
    rcases List.mem_map.mp hx with ⟨u, hu, rfl⟩
    have humem := List.mem_of_mem_filter hu
    have hunotres : u ∉ res := by
      have := List.of_mem_filter hu
      simp only [Bool.not_eq_true'] at this
      intro hc
      have h2 : res.contains u = true := List.elem_iff.mpr hc
      rw [this] at h2
      cases h2
    apply List.count_eq_zero.mpr
    intro hv
    exact hno u humem hunotres hv
  omega

theorem kahnInv_step (g : Graph) (hk : (g.map (fun p => p.1)).Nodup)
    (hwf : WFGraph g) (han : AdjNodup g) (u : String) (rest : List String)
    (deg : DegMap) (res : List String)
    (hinv : KahnInv g (u :: rest) deg res) :
    KahnInv g (rest ++ (kahnStep g deg u).2) (kahnStep g deg u).1 (res ++ [u]) := by
  have hukey : u ∈ g.map (fun p => p.1) :=
    hinv.sub u (List.mem_append.mpr (Or.inr (List.mem_cons_self u rest)))
  have hresk : ∀ x ∈ res, x ∈ g.map (fun p => p.1) :=
    fun x hx => hinv.sub x (List.mem_append.mpr (Or.inl hx))
  have hresnd : res.Nodup := hinv.nodup.of_append_left
  have hdisj : res.Disjoint (u :: rest) := List.disjoint_of_nodup_append hinv.nodup
  have hunotres : u ∉ res := fun hc => hdisj hc (List.mem_cons_self u rest)
  have hdegval : ∀ v ∈ g.map (fun p => p.1),
      degVal deg v = (inDeg g v : Int) - (edgesFrom g res v : Int) := by
    intro v hv
    rw [degVal_eq_getD, hinv.degSome v hv]
    rfl
  have hdegval0 : ∀ v, v ∉ g.map (fun p => p.1) → degVal deg v = 0 := by
    intro v hv
    rw [degVal_eq_getD, hinv.degNone v hv]
    rfl
  have hcnt1 : ∀ v, (getDeps g u).count v ≤ 1 :=
    fun v => List.nodup_iff_count_le_one.mp (nodup_getDeps g han u) v
  have hbatch : ∀ v, v ∈ (kahnStep g deg u).2 ↔
      v ∈ g.map (fun p => p.1) ∧ degVal deg v = 1 ∧ (getDeps g u).count v = 1 := by
    intro v
    rw [kahnStep_mem]
    constructor
    · intro ⟨h1, h2⟩
      have hkv : v ∈ g.map (fun p => p.1) := by
        by_contra hnk
        rw [hdegval0 v hnk] at h1
        omega
      have hc1 := hcnt1 v
      refine ⟨hkv, ?_, ?_⟩ <;> omega
    · intro ⟨_, h1, h2⟩
      rw [h1, h2]
      omega
  have hqz : ∀ v ∈ u :: rest, inDeg g v = edgesFrom g res v := hinv.qZero
  have hcount0 : ∀ v, inDeg g v = edgesFrom g res v → (getDeps g u).count v = 0 :=
    fun v hv =>
      count_eq_zero_of_inDeg_eq g res v u hk hresk hresnd hukey hunotres hv
  have hEres : ∀ v, edgesFrom g (res ++ [u]) v =
      edgesFrom g res v + (getDeps g u).count v := by
    intro v
    rw [edgesFrom_append, edgesFrom_singleton]
  refine ⟨?_, ?_, ?_, ?_, ?_, ?_, ?_, ?_⟩
  · intro x hx
    rcases List.mem_append.mp hx with hx1 | hx2
    · rcases List.mem_append.mp hx1 with hxr | hxu
      · exact hresk x hxr
      · rw [List.mem_singleton.mp hxu]
        exact hukey
    · rcases List.mem_append.mp hx2 with hxrest | hxb
      · exact hinv.sub x
          (List.mem_append.mpr (Or.inr (List.mem_cons_of_mem u hxrest)))
      · exact ((hbatch x).mp hxb).1
  · have hbase : ((res ++ [u]) ++ rest).Nodup := by
      rw [List.append_assoc]
      exact hinv.nodup
    have hbnd : (kahnStep g deg u).2.Nodup := kahnStep_nodup g deg u
    have hdisj2 : ((res ++ [u]) ++ rest).Disjoint (kahnStep g deg u).2 := by
      intro x hx hxb
      rcases (hbatch x).mp hxb with ⟨hxk, hx1, _⟩
      have hx0 : inDeg g x = edgesFrom g res x := by
        rcases List.mem_append.mp hx with hx1' | hxrest
        · rcases List.mem_append.mp hx1' with hxr | hxu
          · exact hinv.resZero x hxr
          · rw [List.mem_singleton.mp hxu]
            exact hqz u (List.mem_cons_self u rest)
        · exact hqz x (List.mem_cons_of_mem u hxrest)
      have hdx := hdegval x hxk
      rw [hx0] at hdx
      omega
    rw [← List.append_assoc]
    exact hbase.append hbnd hdisj2
  · intro v hv
    rw [kahnStep_fst_char]
    by_cases hmem : v ∈ getDeps g u
    · rw [if_pos hmem, hEres v, hdegval v hv]
      congr 1
      push_cast
      ring
    · rw [if_neg hmem, hinv.degSome v hv, hEres v, List.count_eq_zero.mpr hmem]
      norm_num
  · intro v hv
    rw [kahnStep_fst_char, if_neg (fun hc => hv (wf_getDeps g hwf u v hc)),
      hinv.degNone v hv]
  · intro v hv
    rcases List.mem_append.mp hv with hvrest | hvb
    · have h1 := hqz v (List.mem_cons_of_mem u hvrest)
      rw [hEres v, hcount0 v h1]
      omega
    · rcases (hbatch v).mp hvb with ⟨hvk, h1, h2⟩
      have h3 := hdegval v hvk
      rw [hEres v, h2]
      omega
  · intro v hv
    rcases List.mem_append.mp hv with hvr | hvu
    · have h1 := hinv.resZero v hvr
      rw [hEres v, hcount0 v h1]
      omega
    · have hveq := List.mem_singleton.mp hvu
      subst hveq
      have h1 := hqz v (List.mem_cons_self v rest)
      rw [hEres v, hcount0 v h1]
      omega
  · intro v hv hz
    by_cases hvin : v ∈ res ++ u :: rest
    · rcases List.mem_append.mp hvin with hvr | hvur
      · exact List.mem_append.mpr (Or.inl (List.mem_append.mpr (Or.inl hvr)))
      · rcases List.mem_cons.mp hvur with hvu | hvrest
        · refine List.mem_append.mpr (Or.inl (List.mem_append.mpr (Or.inr ?_)))
          rw [hvu]
          exact List.mem_singleton.mpr rfl
        · exact List.mem_append.mpr (Or.inr (List.mem_append.mpr (Or.inl hvrest)))
    · have hne : inDeg g v ≠ edgesFrom g res v := fun hc =>
        hvin (hinv.zeroIn v hv hc)
      have hle := edgesFrom_le_inDeg g res v hk hresk hresnd
      rw [hEres v] at hz
      have hc1 := hcnt1 v
      have hcnt : (getDeps g u).count v = 1 := by omega
      have hdv := hdegval v hv
      refine List.mem_append.mpr (Or.inr (List.mem_append.mpr (Or.inr ?_)))
      exact (hbatch v).mpr ⟨hv, by omega, hcnt⟩
  · intro j hj u' hedge
    have hjlen : j < res.length + 1 := by
      simpa using hj
    by_cases hjres : j < res.length
    · have hget : (res ++ [u]).get ⟨j, hj⟩ = res.get ⟨j, hjres⟩ :=
        List.get_append j hjres
      rw [hget] at hedge
      rcases hinv.topo j hjres u' hedge with ⟨i, hi, hij, hgi⟩
      refine ⟨i, by simp only [List.length_append, List.length_singleton]; omega,
        hij, ?_⟩
      exact (List.get_append i hi).trans hgi
    · have hjeq : j = res.length := by omega
      have hget : (res ++ [u]).get ⟨j, hj⟩ = u :=
        (List.get_eq_getElem _ _).trans (List.getElem_concat_length res u j hjeq hj)
      rw [hget] at hedge
      have hu'key : u' ∈ g.map (fun p => p.1) := mem_keys_of_edge g u' u hedge
      have hu'res : u' ∈ res := by
        by_contra hno
        have h1 := hqz u (List.mem_cons_self u rest)
        have h2 := count_eq_zero_of_inDeg_eq g res u u' hk hresk hresnd
          hu'key hno h1
        exact (List.count_eq_zero.mp h2) hedge
      rcases List.mem_iff_get.mp hu'res with ⟨⟨i, hi⟩, hgi⟩
      refine ⟨i, by simp only [List.length_append, List.length_singleton]; omega,
        by omega, ?_⟩
      exact (List.get_append i hi).trans hgi

theorem kahnInv_init (g : Graph) (hk : (g.map (fun p => p.1)).Nodup)
    (hwf : WFGraph g) :
    KahnInv g (seedQueue (inDegInit g)) (inDegInit g) [] := by
  have hkeys := keys_inDegInit g hk hwf
  have hknd : ((inDegInit g).map (fun p => p.1)).Nodup := by
    rw [hkeys]
    exact hk
  have hseed : ∀ v, v ∈ seedQueue (inDegInit g) ↔ mapGet (inDegInit g) v = some 0 :=
    fun v => mem_seedQueue (inDegInit g) hknd v
  have hseedkey : ∀ v ∈ seedQueue (inDegInit g), v ∈ g.map (fun p => p.1) := by
    intro v hv
    have := (hseed v).mp hv
    rw [mapGet_inDegInit g hwf v] at this
    by_contra hnk
    rw [if_neg hnk] at this
    cases this
  have hE0 : ∀ v, edgesFrom g [] v = 0 := by
    intro v
    unfold edgesFrom
    simp
  refine ⟨?_, ?_, ?_, ?_, ?_, ?_, ?_, ?_⟩
  · intro x hx
    rw [List.nil_append] at hx
    exact hseedkey x hx
  · rw [List.nil_append]
    exact nodup_seedQueue (inDegInit g) hknd
  · intro v hv
    rw [mapGet_inDegInit g hwf v, if_pos hv, hE0 v]
    norm_num
  · intro v hv
    rw [mapGet_inDegInit g hwf v, if_neg hv]
  · intro v hv
    have h1 := (hseed v).mp hv
    have hvk := hseedkey v hv
    rw [mapGet_inDegInit g hwf v, if_pos hvk] at h1
    have h2 : (inDeg g v : Int) = 0 := Option.some.inj h1
    rw [hE0 v]
    omega
  · intro v hv
    cases hv
  · intro v hv hz
    rw [List.nil_append]
    refine (hseed v).mpr ?_
    rw [mapGet_inDegInit g hwf v, if_pos hv, hz, hE0 v]
    norm_num
  · intro j hj
    exact absurd hj (Nat.not_lt_zero j)

theorem kahnRun_inv (g : Graph) (hk : (g.map (fun p => p.1)).Nodup)
    (hwf : WFGraph g) (han : AdjNodup g) :
    ∀ (fuel : Nat) (q : List String) (deg : DegMap) (res : List String),
      KahnInv g q deg res → g.length < fuel + res.length →
      ∃ deg2, KahnInv g [] deg2 (kahnRun g fuel q deg res) := by
  intro fuel
  induction fuel with
  | zero =>
    intro q deg res hinv hlen
    exfalso
    have hresnd : res.Nodup := hinv.nodup.of_append_left
    have hsub : res.Subperm (g.map (fun p => p.1)) :=
      List.subperm_of_subset hresnd
        (fun x hx => hinv.sub x (List.mem_append.mpr (Or.inl hx)))
    have := hsub.length_le
    rw [List.length_map] at this
    omega
  | succ fuel ih =>
    intro q deg res hinv hlen
    cases q with
    | nil => exact ⟨deg, hinv⟩
    | cons u rest =>
      have hstep := kahnInv_step g hk hwf han u rest deg res hinv
      have hlen2 : g.length < fuel + (res ++ [u]).length := by
        rw [List.length_append, List.length_singleton]
        omega
      exact ih (rest ++ (kahnStep g deg u).2) (kahnStep g deg u).1
        (res ++ [u]) hstep hlen2

theorem kahnInv_final_index (g : Graph) (deg : DegMap) (res : List String)
    (hfin : KahnInv g [] deg res) :
    ∀ (a b : String), Relation.TransGen (Edge g) a b →
      ∀ j, ∀ hj : j < res.length, res.get ⟨j, hj⟩ = b →
      ∃ i, ∃ hi : i < res.length, i < j ∧ res.get ⟨i, hi⟩ = a := by
  intro a b htg
  induction htg with
  | single h =>
    intro j hj hgb
    exact hfin.topo j hj a (by rw [hgb]; exact h)
  | tail hab hbc ih =>
    intro j hj hgb
    rcases hfin.topo j hj _ (by rw [hgb]; exact hbc) with ⟨k, hk, hkj, hgk⟩
    rcases ih k hk hgk with ⟨i, hi, hik, hgi⟩
    exact ⟨i, hi, by omega, hgi⟩

theorem kahnInv_topo_order (g : Graph) (deg : DegMap) (res : List String)
    (hfin : KahnInv g [] deg res) :
    ∀ i j, ∀ hi : i < res.length, ∀ hj : j < res.length,
      Relation.TransGen (Edge g) (res.get ⟨i, hi⟩) (res.get ⟨j, hj⟩) → i < j := by
  intro i j hi hj htg
  have hresnd : res.Nodup := by
    have := hfin.nodup
    rwa [List.append_nil] at this
  rcases kahnInv_final_index g deg res hfin _ _ htg j hj rfl with ⟨i2, hi2, hij, hgi2⟩
  have : (⟨i2, hi2⟩ : Fin res.length) = ⟨i, hi⟩ := hresnd.get_inj_iff.mp hgi2
  have hieq : i2 = i := congrArg Fin.val this
  omega

theorem cycle_of_pred (g : Graph) (S : List String)
    (hS : ∀ v ∈ S, ∃ w, w ∈ S ∧ Edge g w v) (v0 : String) (hv0 : v0 ∈ S) :
    ∃ z, Relation.TransGen (Edge g) z z := by
  classical
  choose pred hpredS hpredE using hS
  let c : Nat → {x : String // x ∈ S} := fun n =>
    Nat.rec ⟨v0, hv0⟩ (fun _ p => ⟨pred p.val p.prop, hpredS p.val p.prop⟩) n
  have hedge : ∀ n, Edge g (c (n + 1)).val (c n).val :=
    fun n => hpredE (c n).val (c n).prop
  have hchain : ∀ m n, m < n → Relation.TransGen (Edge g) (c n).val (c m).val := by
    intro m n hmn
    induction n with
    | zero => omega
    | succ n ihn =>
      rcases Nat.lt_succ_iff_lt_or_eq.mp hmn with h | h
      · exact Relation.TransGen.head (hedge n) (ihn h)
      · subst h
        exact Relation.TransGen.single (hedge m)
  have hcard : S.toFinset.card < (Finset.range (S.length + 1)).card := by
    rw [Finset.card_range]
    exact Nat.lt_succ_of_le (List.toFinset_card_le S)
  have hmaps : ∀ n ∈ Finset.range (S.length + 1), (c n).val ∈ S.toFinset :=
    fun n _ => List.mem_toFinset.mpr (c n).prop
  obtain ⟨a, _, b, _, hab, heq⟩ :=
    Finset.exists_ne_map_eq_of_card_lt_of_maps_to hcard hmaps
  rcases Nat.lt_or_ge a b with h | h
  · have hcyc := hchain a b h
    rw [heq] at hcyc
    exact ⟨(c b).val, hcyc⟩
  · have hba : b < a := by omega
    have hcyc := hchain b a hba
    rw [← heq] at hcyc
    exact ⟨(c a).val, hcyc⟩

theorem kahnInv_complete (g : Graph) (deg : DegMap) (res : List String)
    (hk : (g.map (fun p => p.1)).Nodup) (hfin : KahnInv g [] deg res)
    (hacy : Acyclic g) : ∀ v ∈ g.map (fun p => p.1), v ∈ res := by
  by_contra hno
  push_neg at hno
  obtain ⟨v0, hv0k, hv0r⟩ := hno
  have hresnd : res.Nodup := by
    have := hfin.nodup
    rwa [List.append_nil] at this
  have hresk : ∀ x ∈ res, x ∈ g.map (fun p => p.1) :=
    fun x hx => hfin.sub x (List.mem_append.mpr (Or.inl hx))
  have hS : ∀ v ∈ (g.map (fun p => p.1)).filter (fun w => !res.contains w),
      ∃ w, w ∈ (g.map (fun p => p.1)).filter (fun w => !res.contains w) ∧
        Edge g w v := by
    intro v hv
    have hvk := List.mem_of_mem_filter hv
    have hvr : v ∉ res := by
      have hb := List.of_mem_filter hv
      simp only [Bool.not_eq_true'] at hb
      intro hc
      have h2 : res.contains v = true := List.elem_iff.mpr hc
      rw [hb] at h2
      cases h2
    have hne : inDeg g v ≠ edgesFrom g res v := by
      intro hc
      have := hfin.zeroIn v hvk hc
      rw [List.append_nil] at this
      exact hvr this
    have hle := edgesFrom_le_inDeg g res v hk hresk hresnd
    have hlt : edgesFrom g res v < inDeg g v := by omega
    rcases exists_source_of_lt g res v hk hresk hresnd hlt with ⟨w, hwk, hwr, hwe⟩
    refine ⟨w, List.mem_filter.mpr ⟨hwk, ?_⟩, hwe⟩
    simp only [Bool.not_eq_true']
    cases hcon : res.contains w with
    | false => rfl
    | true => exact absurd (List.elem_iff.mp hcon) hwr
  have hv0S : v0 ∈ (g.map (fun p => p.1)).filter (fun w => !res.contains w) := by
    refine List.mem_filter.mpr ⟨hv0k, ?_⟩
    simp only [Bool.not_eq_true']
    cases hcon : res.contains v0 with
    | false => rfl
    | true => exact absurd (List.elem_iff.mp hcon) hv0r
  rcases cycle_of_pred g _ hS v0 hv0S with ⟨z, hz⟩
  exact hacy z hz

theorem kahnSort_eq (g : Graph) :
    kahnSort g =
      (if (kahnRun g (g.length + 1) (seedQueue (inDegInit g)) (inDegInit g)
          []).length = g.length then
        Except.ok (kahnRun g (g.length + 1) (seedQueue (inDegInit g))
          (inDegInit g) [])
      else Except.error
        "Cannot compute execution order: circular dependency detected") := rfl

theorem kahnSort_spec (g : Graph) (hk : (g.map (fun p => p.1)).Nodup)
    (hwf : WFGraph g) (han : AdjNodup g) :
    ((∃ e, kahnSort g = Except.error e) ↔ ¬ Acyclic g) ∧
    (∀ res, kahnSort g = Except.ok res →
      res.Perm (g.map (fun p => p.1)) ∧
      ∀ i j, ∀ hi : i < res.length, ∀ hj : j < res.length,
        Relation.TransGen (Edge g) (res.get ⟨i, hi⟩) (res.get ⟨j, hj⟩) →
          i < j) := by
  obtain ⟨deg2, hfin⟩ := kahnRun_inv g hk hwf han (g.length + 1)
    (seedQueue (inDegInit g)) (inDegInit g) [] (kahnInv_init g hk hwf)
    (by simp)
  set R := kahnRun g (g.length + 1) (seedQueue (inDegInit g)) (inDegInit g) []
    with hR
  have hRnd : R.Nodup := by
    have := hfin.nodup
    rwa [List.append_nil] at this
  have hRsub : ∀ x ∈ R, x ∈ g.map (fun p => p.1) :=
    fun x hx => hfin.sub x (List.mem_append.mpr (Or.inl hx))
  have hsubperm : R.Subperm (g.map (fun p => p.1)) :=
    List.subperm_of_subset hRnd hRsub
  by_cases hlen : R.length = g.length
  · have hsort : kahnSort g = Except.ok R := by
      rw [kahnSort_eq, ← hR, if_pos hlen]
    have hperm : R.Perm (g.map (fun p => p.1)) := by
      obtain ⟨l, hlp, hls⟩ := hsubperm
      have hll : l.length = (g.map (fun p => p.1)).length := by
        rw [hlp.length_eq, List.length_map]
        exact hlen
      have hleq : l = g.map (fun p => p.1) := hls.eq_of_length hll
      rw [← hleq]
      exact hlp.symm
    have hacy : Acyclic g := by
      intro v htg
      have hvk : v ∈ g.map (fun p => p.1) := by
        rcases Relation.TransGen.head'_iff.mp htg with ⟨b, hedge, _⟩
        exact mem_keys_of_edge g v b hedge
      have hvR : v ∈ R := hperm.mem_iff.mpr hvk
      rcases List.mem_iff_get.mp hvR with ⟨⟨j, hj⟩, hgj⟩
      have := kahnInv_topo_order g deg2 R hfin j j hj hj
        (by rw [hgj]; exact htg)
      omega
    constructor
    · constructor
      · rintro ⟨e, he⟩
        rw [hsort] at he
        cases he
      · intro hna
        exact absurd hacy hna
    · intro res hres
      rw [hsort] at hres
      have hreq : R = res := Except.ok.inj hres
      subst hreq
      exact ⟨hperm, fun i j hi hj ht =>
        kahnInv_topo_order g deg2 R hfin i j hi hj ht⟩
  · have hsort : kahnSort g =
        Except.error "Cannot compute execution order: circular dependency detected" := by
      rw [kahnSort_eq, ← hR, if_neg hlen]
    have hnacy : ¬ Acyclic g := by
      intro hacy
      have hcompl := kahnInv_complete g deg2 R hk hfin hacy
      have hsub2 : (g.map (fun p => p.1)).Subperm R :=
        List.subperm_of_subset hk hcompl
      have h1 := hsub2.length_le
      have h2 := hsubperm.length_le
      rw [List.length_map] at h1 h2
      exact hlen (by omega)
    constructor
    · constructor
      · intro _
        exact hnacy
      · intro _
        exact ⟨_, hsort⟩
    · intro res hres
      rw [hsort] at hres
      cases hres

/-- C4: for a notebook with duplicate-free cell ids, `getExecutionOrder`
raises the cyclic-dependency error exactly when the dependency graph has a
cycle, and in that case returns no list at all (the error carries no
partial order); on an acyclic graph it returns every cell id exactly once
(a permutation of the notebook's ids), in an order that places every cell
before all of its direct and transitive dependents — every writer before
all of its direct and transitive readers. -/
theorem getExecutionOrder_correct (cs : List CellDep)
    (hnd : (cs.map (fun c => c.id)).Nodup) :
    ((∃ e, getExecutionOrder cs = Except.error e) ↔
      ¬ Acyclic (buildDependencyGraph cs)) ∧
    (∀ res, getExecutionOrder cs = Except.ok res →
      res.Perm (cs.map (fun c => c.id)) ∧
      ∀ i j, ∀ hi : i < res.length, ∀ hj : j < res.length,
        Relation.TransGen (Edge (buildDependencyGraph cs))
          (res.get ⟨i, hi⟩) (res.get ⟨j, hj⟩) → i < j) := by
  have hids : ((sortCells cs).map (fun c => c.id)).Nodup :=
    ((sortCells_perm cs).map (fun c => c.id)).nodup_iff.mpr hnd
  have hkeys := keys_buildDependencyGraph cs
  have hknd : ((buildDependencyGraph cs).map (fun p => p.1)).Nodup := by
    rw [hkeys]
    exact hids
  have hwf := wf_buildDependencyGraph cs hids
  have han : AdjNodup (buildDependencyGraph cs) := by
    intro p hp
    have hval := getDeps_eq_of_mem (buildDependencyGraph cs) p hknd hp
    rw [← hval, getDeps_buildDependencyGraph]
    exact (collectReaders_sublist (sortCells cs) [] p.1).nodup hids
  have hspec := kahnSort_spec (buildDependencyGraph cs) hknd hwf han
  have hgeo : getExecutionOrder cs = kahnSort (buildDependencyGraph cs) := rfl
  constructor
  · rw [hgeo]
    exact hspec.1
  · intro res hres
    rw [hgeo] at hres
    rcases hspec.2 res hres with ⟨hperm, htopo⟩
    refine ⟨?_, htopo⟩
    rw [hkeys] at hperm
    exact hperm.trans ((sortCells_perm cs).map (fun c => c.id))

theorem getExecutionOrder_correct_witness :
    (diamondCells.map (fun c => c.id)).Nodup ∧
    List.Perm ["A", "B", "C"] (diamondCells.map (fun c => c.id)) := by
  refine ⟨by decide, ?_⟩
  exact ((getExecutionOrder_correct diamondCells (by decide)).2 ["A", "B", "C"]
    (by rfl)).1
